import Mathlib

/-!
Verification of the UTF-8 validator in `src/utf8_valid.h`.

The scalar validator `utf8_valid_naive` and the 32-lane SIMD validator
`utf8_valid` are shallowly embedded: byte buffers become `List Nat`
(each element a byte value `< 256`), 256-bit SIMD vectors become
functions `Nat → Nat` whose lanes `0..31` carry byte values, and every
SIMD intrinsic used by the source is modelled byte-wise.
-/

set_option maxRecDepth 10000

namespace Utf8

/-- Value of a byte reinterpreted as the C type `signed char`. -/
def toSigned (b : Nat) : Int :=
  if b % 256 < 128 then (b % 256 : Int) else (b % 256 : Int) - 256

/-- The comparison `(signed char) b <= (signed char) 0xBF` used throughout the
scalar validator to test for a continuation byte. -/
def contOk (b : Nat) : Prop := toSigned b ≤ toSigned 0xBF

instance (b : Nat) : Decidable (contOk b) :=
  inferInstanceAs (Decidable (toSigned b ≤ toSigned 0xBF))

/-- Loop body of `utf8_valid_naive` from the source: `none` means the whole
remaining buffer is consumed successfully, `some e` means failure with
`*error_index = e`.  `err` is the running `err_idx`. -/
def naive_go : List Nat → Nat → Option Nat
  | [], _ => none
  | b1 :: rest, err =>
    if b1 ≤ 0x7F then naive_go rest (err + 1)
    else
      match rest with
      | b2 :: rest2 =>
        if 0xC2 ≤ b1 ∧ b1 ≤ 0xDF ∧ contOk b2 then naive_go rest2 (err + 2)
        else
          match rest2 with
          | b3 :: rest3 =>
            if contOk b2 ∧ contOk b3 ∧
                ((b1 = 0xE0 ∧ 0xA0 ≤ b2) ∨ (0xE1 ≤ b1 ∧ b1 ≤ 0xEC) ∨
                 (b1 = 0xED ∧ b2 ≤ 0x9F) ∨ (0xEE ≤ b1 ∧ b1 ≤ 0xEF)) then
              naive_go rest3 (err + 3)
            else
              match rest3 with
              | b4 :: rest4 =>
                if contOk b2 ∧ contOk b3 ∧ contOk b4 ∧
                    ((b1 = 0xF0 ∧ 0x90 ≤ b2) ∨ (0xF1 ≤ b1 ∧ b1 ≤ 0xF3) ∨
                     (b1 = 0xF4 ∧ b2 ≤ 0x8F)) then
                  naive_go rest4 (err + 4)
                else some err
              | [] => some err
          | [] => some err
      | [] => some err

/-- `utf8_valid_naive(data, len, &error_index)`: the `Bool` is the return
value, the `Nat` is the final contents of `*error_index` given that it held
`error_index` before the call (it is written only on failure). -/
def utf8_valid_naive (data : List Nat) (error_index : Nat) : Bool × Nat :=
  match naive_go data 0 with
  | none => (true, error_index)
  | some e => (false, e)

/-! SIMD surface: a 256-bit vector is a function from lane index to byte. -/

/-- A 256-bit vector of 32 byte lanes; only lanes `0..31` are meaningful. -/
abbrev Vec := Nat → Nat

def set1 (x : Nat) : Vec := fun _ => x

def loadu (l : List Nat) : Vec := fun i => l.getD i 0

def and_si256 (a b : Vec) : Vec := fun i => a i &&& b i

def or_si256 (a b : Vec) : Vec := fun i => a i ||| b i

def add_epi8 (a b : Vec) : Vec := fun i => (a i % 256 + b i % 256) % 256

def sub_epi8 (a b : Vec) : Vec := fun i => (a i % 256 + 256 - b i % 256) % 256

def subs_epu8 (a b : Vec) : Vec := fun i => a i % 256 - b i % 256

def adds_epu8 (a b : Vec) : Vec := fun i => min 255 (a i % 256 + b i % 256)

def cmpgt_epi8 (a b : Vec) : Vec := fun i =>
  if toSigned (b i) < toSigned (a i) then 0xFF else 0

/-- `_mm256_srli_epi16 (·, 4)`: shift each 16-bit lane right by 4 bits. -/
def srli_epi16_4 (a : Vec) : Vec := fun i =>
  let w := a (i / 2 * 2 + 1) % 256 * 256 + a (i / 2 * 2) % 256
  if i % 2 = 0 then w / 16 % 256 else w / 16 / 256

/-- `_mm256_shuffle_epi8`: per 128-bit lane byte shuffle; an index byte with
bit 7 set yields 0, otherwise its low 4 bits select a byte of that lane. -/
def shuffle_epi8 (tbl idx : Vec) : Vec := fun i =>
  if 128 ≤ idx i % 256 then 0 else tbl (i / 16 * 16 + idx i % 16)

/-- `_mm256_permute2x128_si256 (a, b, 0x21)`: low lane is `a`'s high lane,
high lane is `b`'s low lane. -/
def permute2x128_21 (a b : Vec) : Vec := fun i =>
  if i < 16 then a (i + 16) else b (i - 16)

/-- `_mm256_alignr_epi8 (a, b, n)`: per 128-bit lane, byte `j` of the result
is byte `j + n` of the concatenation `a_lane : b_lane` (with `b` low). -/
def alignr_epi8 (a b : Vec) (n : Nat) : Vec := fun i =>
  if i % 16 + n < 16 then b (i / 16 * 16 + (i % 16 + n))
  else a (i / 16 * 16 + (i % 16 + n) - 16)

/-- `_mm256_testz_si256 (a, b)`: true iff `a AND b` is all zero. -/
def testz (a b : Vec) : Bool := (List.range 32).all fun i => a i &&& b i == 0

/-- `_mm256_extract_epi32 (v, 7)`: the value of byte lanes 28..31 read as a
little-endian 32-bit integer. -/
def extract_epi32_7 (v : Vec) : Nat :=
  v 28 % 256 + v 29 % 256 * 256 + v 30 % 256 * 65536 + v 31 % 256 * 16777216

def push_last_byte_of_a_to_b (a b : Vec) : Vec :=
  alignr_epi8 b (permute2x128_21 a b) 15

def push_last_2bytes_of_a_to_b (a b : Vec) : Vec :=
  alignr_epi8 b (permute2x128_21 a b) 14

def push_last_3bytes_of_a_to_b (a b : Vec) : Vec :=
  alignr_epi8 b (permute2x128_21 a b) 13

/-! The lookup tables from the source. -/

def _first_len_tbl : List Nat :=
  [0, 0, 0, 0, 0, 0, 0, 0, 0, 0, 0, 0, 1, 1, 2, 3,
   0, 0, 0, 0, 0, 0, 0, 0, 0, 0, 0, 0, 1, 1, 2, 3]

def _first_range_tbl : List Nat :=
  [0, 0, 0, 0, 0, 0, 0, 0, 0, 0, 0, 0, 8, 8, 8, 8,
   0, 0, 0, 0, 0, 0, 0, 0, 0, 0, 0, 0, 8, 8, 8, 8]

def _range_min_tbl : List Nat :=
  [0x00, 0x80, 0x80, 0x80, 0xA0, 0x80, 0x90, 0x80,
   0xC2, 0x7F, 0x7F, 0x7F, 0x7F, 0x7F, 0x7F, 0x7F,
   0x00, 0x80, 0x80, 0x80, 0xA0, 0x80, 0x90, 0x80,
   0xC2, 0x7F, 0x7F, 0x7F, 0x7F, 0x7F, 0x7F, 0x7F]

def _range_max_tbl : List Nat :=
  [0x7F, 0xBF, 0xBF, 0xBF, 0xBF, 0x9F, 0xBF, 0x8F,
   0xF4, 0x80, 0x80, 0x80, 0x80, 0x80, 0x80, 0x80,
   0x7F, 0xBF, 0xBF, 0xBF, 0xBF, 0x9F, 0xBF, 0x8F,
   0xF4, 0x80, 0x80, 0x80, 0x80, 0x80, 0x80, 0x80]

def _df_ee_tbl : List Nat :=
  [0, 2, 0, 0, 0, 0, 0, 0, 0, 0, 0, 0, 0, 0, 3, 0,
   0, 2, 0, 0, 0, 0, 0, 0, 0, 0, 0, 0, 0, 0, 3, 0]

def _ef_fe_tbl : List Nat :=
  [0, 3, 0, 0, 0, 4, 0, 0, 0, 0, 0, 0, 0, 0, 0, 0,
   0, 3, 0, 0, 0, 4, 0, 0, 0, 0, 0, 0, 0, 0, 0, 0]

def first_len_tbl : Vec := loadu _first_len_tbl
def first_range_tbl : Vec := loadu _first_range_tbl
def range_min_tbl : Vec := loadu _range_min_tbl
def range_max_tbl : Vec := loadu _range_max_tbl
def df_ee_tbl : Vec := loadu _df_ee_tbl
def ef_fe_tbl : Vec := loadu _ef_fe_tbl

/-! The per-block computation of the vector loop, following the source
line by line. -/

def v_high_nibbles (input : Vec) : Vec :=
  and_si256 (srli_epi16_4 input) (set1 0x0F)

def v_first_len (input : Vec) : Vec :=
  shuffle_epi8 first_len_tbl (v_high_nibbles input)

/-- The per-lane range index of a block, including the `E0/ED/F0/F4`
second-byte adjustments. -/
def v_range (prev_input prev_first_len input : Vec) : Vec :=
  let first_len := v_first_len input
  let range0 := shuffle_epi8 first_range_tbl (v_high_nibbles input)
  let range1 := or_si256 range0 (push_last_byte_of_a_to_b prev_first_len first_len)
  let tmp1 := push_last_2bytes_of_a_to_b prev_first_len first_len
  let tmp2 := subs_epu8 tmp1 (set1 1)
  let range2 := or_si256 range1 tmp2
  let tmp1b := push_last_3bytes_of_a_to_b prev_first_len first_len
  let tmp2b := subs_epu8 tmp1b (set1 2)
  let range3 := or_si256 range2 tmp2b
  let shift1 := push_last_byte_of_a_to_b prev_input input
  let pos := sub_epi8 shift1 (set1 0xEF)
  let tmp1c := subs_epu8 pos (set1 240)
  let range2a := shuffle_epi8 df_ee_tbl tmp1c
  let tmp2c := adds_epu8 pos (set1 112)
  let range2b := add_epi8 range2a (shuffle_epi8 ef_fe_tbl tmp2c)
  add_epi8 range3 range2b

/-- The per-lane error vector: `0xFF` in every lane whose byte falls outside
the min/max bounds of its computed range index. -/
def v_error (prev_input prev_first_len input : Vec) : Vec :=
  let range := v_range prev_input prev_first_len input
  let minv := shuffle_epi8 range_min_tbl range
  let maxv := shuffle_epi8 range_max_tbl range
  or_si256 (cmpgt_epi8 minv input) (cmpgt_epi8 input maxv)

/-- The `!simde_mm256_testz_si256(error, error)` exit test of the loop. -/
def block_has_error (prev_input prev_first_len input : Vec) : Bool :=
  !(testz (v_error prev_input prev_first_len input)
      (v_error prev_input prev_first_len input))

/-- The vector loop.  `off` is the number of bytes already consumed (the
cursor), `err` the running `err_idx`; returns the final cursor,
`prev_input` and `err_idx`.  `fuel` only forces termination; any
`fuel ≥ data.length - off` gives the source behaviour. -/
def vloop : Nat → List Nat → Nat → Vec → Vec → Nat → Nat × Vec × Nat
  | 0, _, off, pin, _, err => (off, pin, err)
  | fuel + 1, data, off, pin, pfl, err =>
    if 32 ≤ data.length - off then
      let input := loadu (data.drop off)
      if block_has_error pin pfl input then (off, pin, err)
      else vloop fuel data (off + 32) input (v_first_len input) (err + 32)
    else (off, pin, err)

/-- The post-loop search for the previous non-continuation byte in the last
four bytes of `prev_input` (`token4`, `token[3]`, `token[2]`, `token[1]`). -/
def lookahead (pin : Vec) : Nat :=
  let token4 := extract_epi32_7 pin
  let token := fun k => token4 / 256 ^ k % 256
  if toSigned 0xBF < toSigned (token 3) then 1
  else if toSigned 0xBF < toSigned (token 2) then 2
  else if toSigned 0xBF < toSigned (token 1) then 3
  else 0

/-- Result of `utf8_valid`: `none` on success, `some e` on failure where `e`
is the value stored through `error_index`. -/
def valid_res (data : List Nat) : Option Nat :=
  if 32 ≤ data.length then
    let r := vloop data.length data 0 (set1 0) (set1 0) 1
    if r.2.2 = 1 then
      match naive_go data 0 with
      | none => none
      | some e2 => some (1 + e2 - 1)
    else
      let la := lookahead r.2.1
      match naive_go (data.drop (r.1 - la)) 0 with
      | none => none
      | some e2 => some (r.2.2 - la + e2 - 1)
  else
    match naive_go data 0 with
    | none => none
    | some e2 => some (1 + e2 - 1)

/-- `utf8_valid(data, len, &error_index)`: the `Bool` is the return value,
the `Nat` the final contents of `*error_index` (written only on failure). -/
def utf8_valid (data : List Nat) (error_index : Nat) : Bool × Nat :=
  match valid_res data with
  | none => (true, error_index)
  | some e => (false, e)

/-! Per-lane scalar semantics of the block computation.  Lane `i` of the
error vector depends only on `input i` and on the three preceding bytes of
the stream; the following functions compute that dependency byte-wise. -/

/-- Scalar counterpart of one lane of `shuffle_epi8` (lanes of the six
tables are duplicated, so only the low half matters). -/
def shuffleByte (tbl : List Nat) (idx : Nat) : Nat :=
  if 128 ≤ idx % 256 then 0 else tbl.getD (idx % 16) 0

/-- Lane value of `first_len` for a byte. -/
def laneFL (b : Nat) : Nat := _first_len_tbl.getD (b % 256 / 16) 0

/-- Lane value of the initial `range` (0 or 8) for a byte. -/
def laneFR (b : Nat) : Nat := _first_range_tbl.getD (b % 256 / 16) 0

/-- Lane value of `pos = shift1 - 0xEF` given the predecessor byte. -/
def lanePos (p1 : Nat) : Nat := (p1 % 256 + 256 - 239) % 256

/-- The combined `df_ee` / `ef_fe` adjustment added to the range index of a
lane whose predecessor byte is `p1`. -/
def laneAdj (p1 : Nat) : Nat :=
  shuffleByte _df_ee_tbl (lanePos p1 - 240) +
    shuffleByte _ef_fe_tbl (min 255 (lanePos p1 + 112))

/-- The range index computed for a byte `b` whose three predecessors in the
stream are `p3 p2 p1` (nearest last). -/
def laneRange (p3 p2 p1 b : Nat) : Nat :=
  (laneFR b ||| laneFL p1 ||| (laneFL p2 - 1) ||| (laneFL p3 - 2)) + laneAdj p1

/-- The min/max check of the vector path for range index `r` and byte `b`. -/
def rangeOk (r b : Nat) : Bool :=
  !(decide (toSigned b < toSigned (shuffleByte _range_min_tbl r)) ||
    decide (toSigned (shuffleByte _range_max_tbl r) < toSigned b))

/-- One lane of the vector check: byte `b` with predecessors `p3 p2 p1`. -/
def laneOk (p3 p2 p1 b : Nat) : Bool := rangeOk (laneRange p3 p2 p1 b) b

/-- The byte `k` positions before lane `i` of `input`, taken from
`prev_input` across the block boundary. -/
def pv (pin input : Vec) (k i : Nat) : Nat :=
  if i < k then pin (32 - k + i) else input (i - k)

/-! Table facts. -/

theorem tbl_dup : ∀ k < 16,
    _first_len_tbl.getD (16 + k) 0 = _first_len_tbl.getD k 0 ∧
    _first_range_tbl.getD (16 + k) 0 = _first_range_tbl.getD k 0 ∧
    _range_min_tbl.getD (16 + k) 0 = _range_min_tbl.getD k 0 ∧
    _range_max_tbl.getD (16 + k) 0 = _range_max_tbl.getD k 0 ∧
    _df_ee_tbl.getD (16 + k) 0 = _df_ee_tbl.getD k 0 ∧
    _ef_fe_tbl.getD (16 + k) 0 = _ef_fe_tbl.getD k 0 := by decide

theorem laneFL_le (b : Nat) : laneFL b ≤ 3 := by
  have h : b % 256 / 16 < 16 := by omega
  have : ∀ k < 16, _first_len_tbl.getD k 0 ≤ 3 := by decide
  exact this _ h

theorem laneFR_le (b : Nat) : laneFR b ≤ 8 := by
  have h : b % 256 / 16 < 16 := by omega
  have : ∀ k < 16, _first_range_tbl.getD k 0 ≤ 8 := by decide
  exact this _ h

theorem shuffleByte_df_le (idx : Nat) : shuffleByte _df_ee_tbl idx ≤ 3 := by
  unfold shuffleByte
  split
  · omega
  · have h : idx % 16 < 16 := by omega
    have : ∀ k < 16, _df_ee_tbl.getD k 0 ≤ 3 := by decide
    exact this _ h

theorem shuffleByte_ef_le (idx : Nat) : shuffleByte _ef_fe_tbl idx ≤ 4 := by
  unfold shuffleByte
  split
  · omega
  · have h : idx % 16 < 16 := by omega
    have : ∀ k < 16, _ef_fe_tbl.getD k 0 ≤ 4 := by decide
    exact this _ h

theorem laneAdj_le (p1 : Nat) : laneAdj p1 ≤ 7 := by
  have h1 := shuffleByte_df_le (lanePos p1 - 240)
  have h2 := shuffleByte_ef_le (min 255 (lanePos p1 + 112))
  unfold laneAdj
  omega

theorem laneRange_lt (p3 p2 p1 b : Nat) : laneRange p3 p2 p1 b < 23 := by
  have h1 := laneFR_le b
  have h2 := laneFL_le p1
  have h3 := laneFL_le p2
  have h4 := laneFL_le p3
  have h5 := laneAdj_le p1
  have hor : (laneFR b ||| laneFL p1 ||| (laneFL p2 - 1) ||| (laneFL p3 - 2)) < 16 := by
    have lt : ∀ x : Nat, x ≤ 8 → x < 2 ^ 4 := by omega
    have o1 : laneFR b ||| laneFL p1 < 2 ^ 4 :=
      Nat.or_lt_two_pow (lt _ h1) (lt _ (by omega))
    have o2 : laneFR b ||| laneFL p1 ||| (laneFL p2 - 1) < 2 ^ 4 :=
      Nat.or_lt_two_pow o1 (lt _ (by omega))
    have o3 : laneFR b ||| laneFL p1 ||| (laneFL p2 - 1) ||| (laneFL p3 - 2) < 2 ^ 4 :=
      Nat.or_lt_two_pow o2 (lt _ (by omega))
    simpa using o3
  unfold laneRange
  omega

/-! Bridge lemmas: each vector operation agrees lane-wise with its scalar
counterpart. -/

theorem hn_lane (input : Vec) (h : ∀ j < 32, input j < 256) (i : Nat) (hi : i < 32) :
    v_high_nibbles input i = input i / 16 := by
  have and15 : ∀ x : Nat, x &&& 15 = x % 16 := by
    intro x
    have := Nat.and_pow_two_sub_one_eq_mod x 4
    norm_num at this
    exact this
  have h1 : input i < 256 := h i hi
  unfold v_high_nibbles and_si256 srli_epi16_4 set1
  rcases Nat.even_or_odd i with he | ho
  · have hmod : i % 2 = 0 := Nat.even_iff.mp he
    have hdiv : i / 2 * 2 = i := by omega
    rw [hdiv, if_pos hmod, and15, Nat.mod_eq_of_lt h1]
    have h2 : input (i + 1) % 256 < 256 := Nat.mod_lt _ (by omega)
    generalize input (i + 1) % 256 = c at h2 ⊢
    omega
  · have hmod : i % 2 = 1 := Nat.odd_iff.mp ho
    have hdiv : i / 2 * 2 = i - 1 := by omega
    have hsucc : i - 1 + 1 = i := by omega
    rw [hdiv, hsucc, if_neg (by omega : ¬i % 2 = 0), and15, Nat.mod_eq_of_lt h1]
    have h2 : input (i - 1) % 256 < 256 := Nat.mod_lt _ (by omega)
    generalize input (i - 1) % 256 = d at h2 ⊢
    omega

theorem shuffle_lane_low (l : List Nat) (idx : Vec) (i : Nat) (hi : i < 32)
    (hidx : idx i < 16)
    (hdup : ∀ k < 16, l.getD (16 + k) 0 = l.getD k 0) :
    shuffle_epi8 (loadu l) idx i = l.getD (idx i) 0 := by
  unfold shuffle_epi8 loadu
  have hm : idx i % 256 = idx i := Nat.mod_eq_of_lt (by omega)
  have hm16 : idx i % 16 = idx i := Nat.mod_eq_of_lt hidx
  rw [hm, hm16, if_neg (by omega)]
  rcases Nat.lt_or_ge i 16 with h16 | h16
  · have : i / 16 = 0 := by omega
    simp [this]
  · have : i / 16 = 1 := by omega
    rw [this]
    have := hdup (idx i) hidx
    simpa using this

theorem v_first_len_lane (input : Vec) (h : ∀ j < 32, input j < 256)
    (i : Nat) (hi : i < 32) : v_first_len input i = laneFL (input i) := by
  unfold v_first_len first_len_tbl
  have hnib : v_high_nibbles input i = input i / 16 := hn_lane input h i hi
  have hlt : v_high_nibbles input i < 16 := by
    rw [hnib]; have := h i hi; omega
  rw [shuffle_lane_low _ _ i hi hlt (fun k hk => (tbl_dup k hk).1), hnib]
  unfold laneFL
  rw [Nat.mod_eq_of_lt (h i hi)]

theorem push_lane (a b : Vec) (k i : Nat) (hk1 : 1 ≤ k) (hk3 : k ≤ 3) (hi : i < 32) :
    alignr_epi8 b (permute2x128_21 a b) (16 - k) i =
      if i < k then a (32 - k + i) else b (i - k) := by
  unfold alignr_epi8 permute2x128_21
  split_ifs with h1 h2 h3 h4 h5 <;> (congr 1; omega)

theorem shuffle_lane (l : List Nat) (idx : Vec) (i : Nat) (hi : i < 32)
    (hidx : idx i < 256)
    (hdup : ∀ k < 16, l.getD (16 + k) 0 = l.getD k 0) :
    shuffle_epi8 (loadu l) idx i = shuffleByte l (idx i) := by
  unfold shuffle_epi8 loadu shuffleByte
  rw [Nat.mod_eq_of_lt hidx]
  split_ifs with h
  · rfl
  · rcases Nat.lt_or_ge i 16 with h16 | h16
    · have : i / 16 = 0 := by omega
      simp [this]
    · have h1 : i / 16 = 1 := by omega
      rw [h1]
      have h2 : idx i % 16 < 16 := by omega
      have := hdup (idx i % 16) h2
      simpa using this

theorem shuffleByte_small (l : List Nat) (idx : Nat) (hidx : idx < 16) :
    shuffleByte l idx = l.getD idx 0 := by
  unfold shuffleByte
  rw [Nat.mod_eq_of_lt (by omega : idx < 256), if_neg (by omega),
    Nat.mod_eq_of_lt hidx]

theorem push1_lane (a b : Vec) (i : Nat) (hi : i < 32) :
    push_last_byte_of_a_to_b a b i = if i < 1 then a (31 + i) else b (i - 1) := by
  have := push_lane a b 1 i (by omega) (by omega) hi
  unfold push_last_byte_of_a_to_b
  simpa using this

theorem push2_lane (a b : Vec) (i : Nat) (hi : i < 32) :
    push_last_2bytes_of_a_to_b a b i = if i < 2 then a (30 + i) else b (i - 2) := by
  have := push_lane a b 2 i (by omega) (by omega) hi
  unfold push_last_2bytes_of_a_to_b
  simpa using this

theorem push3_lane (a b : Vec) (i : Nat) (hi : i < 32) :
    push_last_3bytes_of_a_to_b a b i = if i < 3 then a (29 + i) else b (i - 3) := by
  have := push_lane a b 3 i (by omega) (by omega) hi
  unfold push_last_3bytes_of_a_to_b
  simpa using this

theorem v_first_range_lane (input : Vec) (h : ∀ j < 32, input j < 256)
    (i : Nat) (hi : i < 32) :
    shuffle_epi8 first_range_tbl (v_high_nibbles input) i = laneFR (input i) := by
  unfold first_range_tbl
  have hnib : v_high_nibbles input i = input i / 16 := hn_lane input h i hi
  have hlt : v_high_nibbles input i < 256 := by
    rw [hnib]; have := h i hi; omega
  rw [shuffle_lane _ _ i hi hlt (fun k hk => (tbl_dup k hk).2.1), hnib]
  unfold laneFR shuffleByte
  have hb := h i hi
  have h16 : input i / 16 < 16 := by omega
  rw [Nat.mod_eq_of_lt (by omega : input i / 16 < 256), if_neg (by omega),
    Nat.mod_eq_of_lt h16, Nat.mod_eq_of_lt hb]

theorem lane_or_lt (p3 p2 p1 b : Nat) :
    laneFR b ||| laneFL p1 ||| (laneFL p2 - 1) ||| (laneFL p3 - 2) < 16 := by
  have h1 := laneFR_le b
  have h2 := laneFL_le p1
  have h3 := laneFL_le p2
  have h4 := laneFL_le p3
  have lt : ∀ x : Nat, x ≤ 8 → x < 2 ^ 4 := by omega
  have o1 : laneFR b ||| laneFL p1 < 2 ^ 4 :=
    Nat.or_lt_two_pow (lt _ h1) (lt _ (by omega))
  have o2 : laneFR b ||| laneFL p1 ||| (laneFL p2 - 1) < 2 ^ 4 :=
    Nat.or_lt_two_pow o1 (lt _ (by omega))
  have o3 : laneFR b ||| laneFL p1 ||| (laneFL p2 - 1) ||| (laneFL p3 - 2) < 2 ^ 4 :=
    Nat.or_lt_two_pow o2 (lt _ (by omega))
  simpa using o3

theorem v_range_lane (pin pfl input : Vec)
    (hin : ∀ j < 32, input j < 256) (hpin : ∀ j < 32, pin j < 256)
    (hpfl : ∀ j < 32, pfl j = laneFL (pin j)) (i : Nat) (hi : i < 32) :
    v_range pin pfl input i =
      laneRange (pv pin input 3 i) (pv pin input 2 i) (pv pin input 1 i) (input i) := by
  have e1 : push_last_byte_of_a_to_b pfl (v_first_len input) i =
      laneFL (pv pin input 1 i) := by
    rw [push1_lane _ _ i hi]
    unfold pv
    split_ifs with h
    · rw [hpfl (31 + i) (by omega)]
    · exact v_first_len_lane input hin (i - 1) (by omega)
  have e2 : push_last_2bytes_of_a_to_b pfl (v_first_len input) i =
      laneFL (pv pin input 2 i) := by
    rw [push2_lane _ _ i hi]
    unfold pv
    split_ifs with h
    · rw [hpfl (30 + i) (by omega)]
    · exact v_first_len_lane input hin (i - 2) (by omega)
  have e3 : push_last_3bytes_of_a_to_b pfl (v_first_len input) i =
      laneFL (pv pin input 3 i) := by
    rw [push3_lane _ _ i hi]
    unfold pv
    split_ifs with h
    · rw [hpfl (29 + i) (by omega)]
    · exact v_first_len_lane input hin (i - 3) (by omega)
  have e4 : push_last_byte_of_a_to_b pin input i = pv pin input 1 i := by
    rw [push1_lane _ _ i hi]
    unfold pv
    norm_num
  have hp1 : pv pin input 1 i < 256 := by
    unfold pv
    split_ifs with h
    · exact hpin _ (by omega)
    · exact hin _ (by omega)
  have hsh1 : shuffle_epi8 df_ee_tbl
      (subs_epu8 (sub_epi8 (push_last_byte_of_a_to_b pin input) (set1 239)) (set1 240)) i =
      shuffleByte _df_ee_tbl (lanePos (pv pin input 1 i) - 240) := by
    have hidx : (subs_epu8 (sub_epi8 (push_last_byte_of_a_to_b pin input) (set1 239))
        (set1 240)) i < 256 := by
      simp only [subs_epu8, sub_epi8, set1]
      omega
    unfold df_ee_tbl
    rw [shuffle_lane _ _ i hi hidx (fun k hk => (tbl_dup k hk).2.2.2.2.1)]
    have hix : (subs_epu8 (sub_epi8 (push_last_byte_of_a_to_b pin input) (set1 239))
        (set1 240)) i = lanePos (pv pin input 1 i) - 240 := by
      simp only [subs_epu8, sub_epi8, set1]
      rw [e4]
      unfold lanePos
      omega
    rw [hix]
  have hsh2 : shuffle_epi8 ef_fe_tbl
      (adds_epu8 (sub_epi8 (push_last_byte_of_a_to_b pin input) (set1 239)) (set1 112)) i =
      shuffleByte _ef_fe_tbl (min 255 (lanePos (pv pin input 1 i) + 112)) := by
    have hidx : (adds_epu8 (sub_epi8 (push_last_byte_of_a_to_b pin input) (set1 239))
        (set1 112)) i < 256 := by
      simp only [adds_epu8, sub_epi8, set1]
      omega
    unfold ef_fe_tbl
    rw [shuffle_lane _ _ i hi hidx (fun k hk => (tbl_dup k hk).2.2.2.2.2)]
    have hix : (adds_epu8 (sub_epi8 (push_last_byte_of_a_to_b pin input) (set1 239))
        (set1 112)) i = min 255 (lanePos (pv pin input 1 i) + 112) := by
      simp only [adds_epu8, sub_epi8, set1]
      rw [e4]
      unfold lanePos
      omega
    rw [hix]
  unfold v_range
  simp only [or_si256, add_epi8, subs_epu8, set1]
  rw [e1, e2, e3, hsh1, hsh2, v_first_range_lane input hin i hi]
  have hfl2 := laneFL_le (pv pin input 2 i)
  have hfl3 := laneFL_le (pv pin input 3 i)
  rw [Nat.mod_eq_of_lt (by omega : laneFL (pv pin input 2 i) < 256)]
  rw [Nat.mod_eq_of_lt (by omega : laneFL (pv pin input 3 i) < 256)]
  rw [(by norm_num : (1 : Nat) % 256 = 1), (by norm_num : (2 : Nat) % 256 = 2)]
  have hor := lane_or_lt (pv pin input 3 i) (pv pin input 2 i) (pv pin input 1 i) (input i)
  have hdf := shuffleByte_df_le (lanePos (pv pin input 1 i) - 240)
  have hef := shuffleByte_ef_le (min 255 (lanePos (pv pin input 1 i) + 112))
  unfold laneRange laneAdj
  omega

theorem v_error_lane (pin pfl input : Vec)
    (hin : ∀ j < 32, input j < 256) (hpin : ∀ j < 32, pin j < 256)
    (hpfl : ∀ j < 32, pfl j = laneFL (pin j)) (i : Nat) (hi : i < 32) :
    v_error pin pfl input i =
      if laneOk (pv pin input 3 i) (pv pin input 2 i) (pv pin input 1 i) (input i) = true
      then 0 else 255 := by
  have hr := v_range_lane pin pfl input hin hpin hpfl i hi
  have hrlt : v_range pin pfl input i < 256 := by
    rw [hr]
    have := laneRange_lt (pv pin input 3 i) (pv pin input 2 i) (pv pin input 1 i) (input i)
    omega
  unfold v_error
  simp only [or_si256, cmpgt_epi8]
  unfold range_min_tbl range_max_tbl
  rw [shuffle_lane _ _ i hi hrlt (fun k hk => (tbl_dup k hk).2.2.1)]
  rw [shuffle_lane _ _ i hi hrlt (fun k hk => (tbl_dup k hk).2.2.2.1)]
  rw [hr]
  unfold laneOk rangeOk
  by_cases h1 : toSigned (input i) <
      toSigned (shuffleByte _range_min_tbl
        (laneRange (pv pin input 3 i) (pv pin input 2 i) (pv pin input 1 i) (input i))) <;>
    by_cases h2 : toSigned (shuffleByte _range_max_tbl
        (laneRange (pv pin input 3 i) (pv pin input 2 i) (pv pin input 1 i) (input i))) <
        toSigned (input i)
  · rw [if_pos h1, if_pos h2, decide_eq_true h1, decide_eq_true h2]
    decide
  · rw [if_pos h1, if_neg h2, decide_eq_true h1, decide_eq_false h2]
    decide
  · rw [if_neg h1, if_pos h2, decide_eq_false h1, decide_eq_true h2]
    decide
  · rw [if_neg h1, if_neg h2, decide_eq_false h1, decide_eq_false h2]
    decide

theorem testz_iff (a b : Vec) : testz a b = true ↔ ∀ i < 32, a i &&& b i = 0 := by
  unfold testz
  rw [List.all_eq_true]
  constructor
  · intro H i hi
    have := H i (List.mem_range.mpr hi)
    simpa using this
  · intro H x hx
    have := H x (List.mem_range.mp hx)
    simpa using this

theorem block_has_error_false_iff (pin pfl input : Vec)
    (hin : ∀ j < 32, input j < 256) (hpin : ∀ j < 32, pin j < 256)
    (hpfl : ∀ j < 32, pfl j = laneFL (pin j)) :
    block_has_error pin pfl input = false ↔
      ∀ i < 32, laneOk (pv pin input 3 i) (pv pin input 2 i) (pv pin input 1 i)
        (input i) = true := by
  unfold block_has_error
  rw [Bool.not_eq_false', testz_iff]
  constructor
  · intro H i hi
    have h := H i hi
    rw [v_error_lane pin pfl input hin hpin hpfl i hi] at h
    by_contra hok
    rw [if_neg hok] at h
    norm_num at h
  · intro H i hi
    rw [v_error_lane pin pfl input hin hpin hpfl i hi, if_pos (H i hi)]
    decide

/-! Closed-form characterizations of the per-lane functions, proved by
exhaustive evaluation. -/

/-- Closed form of `laneFL`: the expected number of continuation bytes after
a byte of this value. -/
def flSpec (b : Nat) : Nat :=
  if b < 0xC0 then 0 else if b < 0xE0 then 1 else if b < 0xF0 then 2 else 3

theorem laneFL_eq (b : Nat) (hb : b < 256) : laneFL b = flSpec b := by
  have h : ∀ x < 256, laneFL x = flSpec x := by decide
  exact h b hb

theorem laneFR_eq (b : Nat) (hb : b < 256) :
    laneFR b = if 0xC0 ≤ b then 8 else 0 := by
  have h : ∀ x < 256, laneFR x = if 0xC0 ≤ x then 8 else 0 := by decide
  exact h b hb

/-- Closed form of `laneAdj`: nonzero exactly for the four special
predecessors `E0`, `ED`, `F0`, `F4`. -/
def adjSpec (p1 : Nat) : Nat :=
  if p1 = 0xE0 then 2 else if p1 = 0xED then 3 else
  if p1 = 0xF0 then 3 else if p1 = 0xF4 then 4 else 0

theorem laneAdj_eq (p1 : Nat) (h : p1 < 256) : laneAdj p1 = adjSpec p1 := by
  have hh : ∀ x < 256, laneAdj x = adjSpec x := by decide
  exact hh p1 h

/-- Closed form of the min/max check per range index. -/
def rangeOkSpec (r b : Nat) : Bool :=
  if r = 0 then decide (b ≤ 0x7F)
  else if r ≤ 3 then decide (0x80 ≤ b ∧ b ≤ 0xBF)
  else if r = 4 then decide (0xA0 ≤ b ∧ b ≤ 0xBF)
  else if r = 5 then decide (0x80 ≤ b ∧ b ≤ 0x9F)
  else if r = 6 then decide (0x90 ≤ b ∧ b ≤ 0xBF)
  else if r = 7 then decide (0x80 ≤ b ∧ b ≤ 0x8F)
  else if r = 8 then decide (0xC2 ≤ b ∧ b ≤ 0xF4)
  else false

theorem rangeOk_eq (r b : Nat) (hr : r < 16) (hb : b < 256) :
    rangeOk r b = rangeOkSpec r b := by
  have h : ∀ x < 16, ∀ y < 256, rangeOk x y = rangeOkSpec x y := by decide
  exact h r hr b hb

/-- Closed form of the range index in terms of the classes of the context
bytes. -/
def laneRangeSpec (f3 f2 : Nat) (p1 b : Nat) : Nat :=
  ((if 0xC0 ≤ b then 8 else 0) ||| flSpec p1 ||| (f2 - 1) ||| (f3 - 2)) + adjSpec p1

theorem laneRange_spec (p3 p2 p1 b : Nat) (h3 : p3 < 256) (h2 : p2 < 256)
    (h1 : p1 < 256) (hb : b < 256) :
    laneRange p3 p2 p1 b = laneRangeSpec (flSpec p3) (flSpec p2) p1 b := by
  unfold laneRange laneRangeSpec
  rw [laneFL_eq p1 h1, laneFL_eq p2 h2, laneFL_eq p3 h3, laneFR_eq b hb,
    laneAdj_eq p1 h1]

theorem flSpec_le (b : Nat) : flSpec b ≤ 3 := by
  unfold flSpec; split_ifs <;> omega

theorem adjSpec_le (b : Nat) : adjSpec b ≤ 4 := by
  unfold adjSpec; split_ifs <;> omega

theorem laneRangeSpec_lt (f3 f2 p1 b : Nat) (h3 : f3 ≤ 3) (h2 : f2 ≤ 3) :
    laneRangeSpec f3 f2 p1 b < 16 := by
  have hfl : flSpec p1 ≤ 3 := flSpec_le p1
  have hadj : adjSpec p1 ≤ 4 := adjSpec_le p1
  have lt : ∀ x : Nat, x ≤ 3 → x < 2 ^ 2 := by omega
  have o1 : (f2 - 1) ||| (f3 - 2) < 2 ^ 2 :=
    Nat.or_lt_two_pow (lt _ (by omega)) (lt _ (by omega))
  have o2 : flSpec p1 ||| ((f2 - 1) ||| (f3 - 2)) < 2 ^ 2 :=
    Nat.or_lt_two_pow (lt _ hfl) o1
  have hrest : flSpec p1 ||| ((f2 - 1) ||| (f3 - 2)) < 4 := by simpa using o2
  have hor : ∀ r < 4, (8 ||| r) = 8 + r ∧ (0 ||| r) = r := by decide
  unfold laneRangeSpec
  rw [Nat.or_assoc, Nat.or_assoc]
  split_ifs with hc
  · rw [(hor _ hrest).1]
    omega
  · rw [(hor _ hrest).2]
    omega

/-- The fully characterized lane check. -/
theorem laneOk_spec (p3 p2 p1 b : Nat) (h3 : p3 < 256) (h2 : p2 < 256)
    (h1 : p1 < 256) (hb : b < 256) :
    laneOk p3 p2 p1 b = rangeOkSpec (laneRangeSpec (flSpec p3) (flSpec p2) p1 b) b := by
  unfold laneOk
  rw [laneRange_spec p3 p2 p1 b h3 h2 h1 hb,
    rangeOk_eq _ b (laneRangeSpec_lt _ _ _ _ (flSpec_le p3) (flSpec_le p2)) hb]

/-- Continuation byte, as a plain interval. -/
def contB (b : Nat) : Prop := 0x80 ≤ b ∧ b ≤ 0xBF

instance (b : Nat) : Decidable (contB b) :=
  inferInstanceAs (Decidable (0x80 ≤ b ∧ b ≤ 0xBF))

theorem contOk_iff (b : Nat) (hb : b < 256) : contOk b ↔ contB b := by
  have h : ∀ x < 256, (contOk x ↔ contB x) := by decide
  exact h b hb

/-! Lane checks in the contexts that arise while scanning a stream: one
lemma per position kind (start of a character, or k-th byte of a 2/3/4-byte
character). -/

theorem flSpec_eq_zero (p : Nat) (h : flSpec p = 0) : p < 0xC0 := by
  unfold flSpec at h; split_ifs at h <;> omega

theorem adjSpec_eq_zero_of_lt (p : Nat) (h : p < 0xC0) : adjSpec p = 0 := by
  unfold adjSpec; split_ifs <;> omega

theorem rangeOkSpec_bad (r b : Nat) (h9 : 9 ≤ r) (h15 : r ≤ 15) :
    rangeOkSpec r b = false := by
  unfold rangeOkSpec; split_ifs <;> first | rfl | omega

theorem lane_start (p3 p2 p1 b : Nat) (h3 : p3 < 256) (h2 : p2 < 256)
    (h1 : p1 < 256) (hb : b < 256)
    (c1 : flSpec p1 = 0) (c2 : flSpec p2 ≤ 1) (c3 : flSpec p3 ≤ 2) :
    laneOk p3 p2 p1 b = true ↔ (b ≤ 0x7F ∨ (0xC2 ≤ b ∧ b ≤ 0xF4)) := by
  rw [laneOk_spec p3 p2 p1 b h3 h2 h1 hb]
  unfold laneRangeSpec
  rw [c1, (by omega : flSpec p2 - 1 = 0), (by omega : flSpec p3 - 2 = 0),
    adjSpec_eq_zero_of_lt p1 (flSpec_eq_zero p1 c1)]
  simp only [Nat.or_zero, Nat.add_zero]
  by_cases hc : 0xC0 ≤ b
  · rw [if_pos hc]
    norm_num [rangeOkSpec]
    omega
  · rw [if_neg hc]
    norm_num [rangeOkSpec]
    omega

theorem lane_two2 (p3 p2 p1 b : Nat) (h3 : p3 < 256) (h2 : p2 < 256)
    (h1 : p1 < 256) (hb : b < 256)
    (c1a : 0xC2 ≤ p1) (c1b : p1 ≤ 0xDF) (c2 : flSpec p2 = 0) (c3 : flSpec p3 ≤ 1) :
    laneOk p3 p2 p1 b = true ↔ contB b := by
  rw [laneOk_spec p3 p2 p1 b h3 h2 h1 hb]
  unfold laneRangeSpec
  have hf1 : flSpec p1 = 1 := by unfold flSpec; split_ifs <;> omega
  have hadj : adjSpec p1 = 0 := by unfold adjSpec; split_ifs <;> omega
  rw [hf1, hadj, (by omega : flSpec p2 - 1 = 0), (by omega : flSpec p3 - 2 = 0)]
  simp only [Nat.or_zero, Nat.add_zero]
  by_cases hc : 0xC0 ≤ b
  · rw [if_pos hc, (by decide : (8 ||| 1 : Nat) = 9)]
    rw [rangeOkSpec_bad 9 b (by omega) (by omega)]
    norm_num [contB]
    omega
  · rw [if_neg hc, (by decide : (0 ||| 1 : Nat) = 1)]
    norm_num [rangeOkSpec, contB]

theorem lane_three2 (p3 p2 p1 b : Nat) (h3 : p3 < 256) (h2 : p2 < 256)
    (h1 : p1 < 256) (hb : b < 256)
    (c1a : 0xE0 ≤ p1) (c1b : p1 ≤ 0xEF) (c2 : flSpec p2 = 0) (c3 : flSpec p3 ≤ 1) :
    laneOk p3 p2 p1 b = true ↔
      (contB b ∧ (p1 = 0xE0 → 0xA0 ≤ b) ∧ (p1 = 0xED → b ≤ 0x9F)) := by
  rw [laneOk_spec p3 p2 p1 b h3 h2 h1 hb]
  unfold laneRangeSpec
  have hf1 : flSpec p1 = 2 := by unfold flSpec; split_ifs <;> omega
  have hadj := adjSpec_le p1
  rw [hf1, (by omega : flSpec p2 - 1 = 0), (by omega : flSpec p3 - 2 = 0)]
  simp only [Nat.or_zero]
  by_cases hc : 0xC0 ≤ b
  · rw [if_pos hc, (by decide : (8 ||| 2 : Nat) = 10)]
    have hbad : adjSpec p1 = 0 ∨ adjSpec p1 = 2 ∨ adjSpec p1 = 3 := by
      unfold adjSpec; split_ifs <;> omega
    rw [rangeOkSpec_bad (10 + adjSpec p1) b (by omega) (by omega)]
    norm_num [contB]
    omega
  · rw [if_neg hc, (by decide : (0 ||| 2 : Nat) = 2)]
    by_cases hE0 : p1 = 0xE0
    · subst hE0
      rw [(by decide : adjSpec 0xE0 = 2)]
      norm_num [rangeOkSpec, contB]
      omega
    · by_cases hED : p1 = 0xED
      · subst hED
        rw [(by decide : adjSpec 0xED = 3)]
        norm_num [rangeOkSpec, contB]
        omega
      · rw [(by unfold adjSpec; split_ifs <;> omega : adjSpec p1 = 0)]
        norm_num [rangeOkSpec, contB]
        omega

theorem lane_four2 (p3 p2 p1 b : Nat) (h3 : p3 < 256) (h2 : p2 < 256)
    (h1 : p1 < 256) (hb : b < 256)
    (c1a : 0xF0 ≤ p1) (c1b : p1 ≤ 0xF4) (c2 : flSpec p2 = 0) (c3 : flSpec p3 ≤ 1) :
    laneOk p3 p2 p1 b = true ↔
      (contB b ∧ (p1 = 0xF0 → 0x90 ≤ b) ∧ (p1 = 0xF4 → b ≤ 0x8F)) := by
  rw [laneOk_spec p3 p2 p1 b h3 h2 h1 hb]
  unfold laneRangeSpec
  have hf1 : flSpec p1 = 3 := by unfold flSpec; split_ifs <;> omega
  have hadj := adjSpec_le p1
  rw [hf1, (by omega : flSpec p2 - 1 = 0), (by omega : flSpec p3 - 2 = 0)]
  simp only [Nat.or_zero]
  by_cases hc : 0xC0 ≤ b
  · rw [if_pos hc, (by decide : (8 ||| 3 : Nat) = 11)]
    have hbad : adjSpec p1 = 0 ∨ adjSpec p1 = 3 ∨ adjSpec p1 = 4 := by
      unfold adjSpec; split_ifs <;> omega
    rw [rangeOkSpec_bad (11 + adjSpec p1) b (by omega) (by omega)]
    norm_num [contB]
    omega
  · rw [if_neg hc, (by decide : (0 ||| 3 : Nat) = 3)]
    by_cases hF0 : p1 = 0xF0
    · subst hF0
      rw [(by decide : adjSpec 0xF0 = 3)]
      norm_num [rangeOkSpec, contB]
      omega
    · by_cases hF4 : p1 = 0xF4
      · subst hF4
        rw [(by decide : adjSpec 0xF4 = 4)]
        norm_num [rangeOkSpec, contB]
        omega
      · rw [(by unfold adjSpec; split_ifs <;> omega : adjSpec p1 = 0)]
        norm_num [rangeOkSpec, contB]
        omega

theorem lane_three3 (p3 p2 p1 b : Nat) (h3 : p3 < 256) (h2 : p2 < 256)
    (h1 : p1 < 256) (hb : b < 256)
    (c1 : contB p1) (c2a : 0xE0 ≤ p2) (c2b : p2 ≤ 0xEF) (c3 : flSpec p3 = 0) :
    laneOk p3 p2 p1 b = true ↔ contB b := by
  obtain ⟨c1a, c1b⟩ := c1
  rw [laneOk_spec p3 p2 p1 b h3 h2 h1 hb]
  unfold laneRangeSpec
  have hf1 : flSpec p1 = 0 := by unfold flSpec; split_ifs <;> omega
  have hf2 : flSpec p2 = 2 := by unfold flSpec; split_ifs <;> omega
  have hadj : adjSpec p1 = 0 := by unfold adjSpec; split_ifs <;> omega
  rw [hf1, hf2, hadj, (by omega : (2 : Nat) - 1 = 1), (by omega : flSpec p3 - 2 = 0)]
  simp only [Nat.or_zero, Nat.add_zero]
  by_cases hc : 0xC0 ≤ b
  · rw [if_pos hc, (by decide : (8 ||| 1 : Nat) = 9)]
    rw [rangeOkSpec_bad 9 b (by omega) (by omega)]
    norm_num [contB]
    omega
  · rw [if_neg hc, (by decide : (0 ||| 1 : Nat) = 1)]
    norm_num [rangeOkSpec, contB]

theorem lane_four3 (p3 p2 p1 b : Nat) (h3 : p3 < 256) (h2 : p2 < 256)
    (h1 : p1 < 256) (hb : b < 256)
    (c1 : contB p1) (c2a : 0xF0 ≤ p2) (c2b : p2 ≤ 0xF4) (c3 : flSpec p3 = 0) :
    laneOk p3 p2 p1 b = true ↔ contB b := by
  obtain ⟨c1a, c1b⟩ := c1
  rw [laneOk_spec p3 p2 p1 b h3 h2 h1 hb]
  unfold laneRangeSpec
  have hf1 : flSpec p1 = 0 := by unfold flSpec; split_ifs <;> omega
  have hf2 : flSpec p2 = 3 := by unfold flSpec; split_ifs <;> omega
  have hadj : adjSpec p1 = 0 := by unfold adjSpec; split_ifs <;> omega
  rw [hf1, hf2, hadj, (by omega : (3 : Nat) - 1 = 2), (by omega : flSpec p3 - 2 = 0)]
  simp only [Nat.or_zero, Nat.add_zero]
  by_cases hc : 0xC0 ≤ b
  · rw [if_pos hc, (by decide : (8 ||| 2 : Nat) = 10)]
    rw [rangeOkSpec_bad 10 b (by omega) (by omega)]
    norm_num [contB]
    omega
  · rw [if_neg hc, (by decide : (0 ||| 2 : Nat) = 2)]
    norm_num [rangeOkSpec, contB]

theorem lane_four4 (p3 p2 p1 b : Nat) (h3 : p3 < 256) (h2 : p2 < 256)
    (h1 : p1 < 256) (hb : b < 256)
    (c1 : contB p1) (c2 : contB p2) (c3a : 0xF0 ≤ p3) (c3b : p3 ≤ 0xF4) :
    laneOk p3 p2 p1 b = true ↔ contB b := by
  obtain ⟨c1a, c1b⟩ := c1
  obtain ⟨c2a, c2b⟩ := c2
  rw [laneOk_spec p3 p2 p1 b h3 h2 h1 hb]
  unfold laneRangeSpec
  have hf1 : flSpec p1 = 0 := by unfold flSpec; split_ifs <;> omega
  have hf2 : flSpec p2 = 0 := by unfold flSpec; split_ifs <;> omega
  have hf3 : flSpec p3 = 3 := by unfold flSpec; split_ifs <;> omega
  have hadj : adjSpec p1 = 0 := by unfold adjSpec; split_ifs <;> omega
  rw [hf1, hf2, hf3, hadj, (by omega : (0 : Nat) - 1 = 0), (by omega : (3 : Nat) - 2 = 1)]
  simp only [Nat.or_zero, Nat.add_zero]
  by_cases hc : 0xC0 ≤ b
  · rw [if_pos hc, (by decide : (8 ||| 1 : Nat) = 9)]
    rw [rangeOkSpec_bad 9 b (by omega) (by omega)]
    norm_num [contB]
    omega
  · rw [if_neg hc, (by decide : (0 ||| 1 : Nat) = 1)]
    norm_num [rangeOkSpec, contB]

/-- All-ASCII lanes always pass (with ASCII or zero context). -/
theorem lane_ascii (p3 p2 p1 b : Nat) (h3 : p3 ≤ 0x7F) (h2 : p2 ≤ 0x7F)
    (h1 : p1 ≤ 0x7F) (hb : b ≤ 0x7F) : laneOk p3 p2 p1 b = true := by
  have c1 : flSpec p1 = 0 := by unfold flSpec; split_ifs <;> omega
  have c2 : flSpec p2 ≤ 1 := by unfold flSpec; split_ifs <;> omega
  have c3 : flSpec p3 ≤ 2 := by unfold flSpec; split_ifs <;> omega
  exact (lane_start p3 p2 p1 b (by omega) (by omega) (by omega) (by omega)
    c1 c2 c3).mpr (Or.inl hb)

/-! Stream-level view: the lane check at an absolute position of the input,
with the zero-initialized vector state acting as zero padding before the
start of the buffer. -/

/-- The byte `k` positions before position `j`, with zero padding. -/
def ctxByte (data : List Nat) (j k : Nat) : Nat :=
  if j < k then 0 else data.getD (j - k) 0

/-- The lane check at absolute position `j` of the stream. -/
def laneOkAt (data : List Nat) (j : Nat) : Prop :=
  laneOk (ctxByte data j 3) (ctxByte data j 2) (ctxByte data j 1) (data.getD j 0) = true

/-- Boundary context: the three bytes before a character boundary `m` can
only be final bytes of complete characters (or padding). -/
def BCtxAt (data : List Nat) (m : Nat) : Prop :=
  flSpec (ctxByte data m 1) = 0 ∧ flSpec (ctxByte data m 2) ≤ 1 ∧
    flSpec (ctxByte data m 3) ≤ 2

/-! The four well-formed character shapes consumed by the scalar validator,
and the shapes of a pending (incomplete) character. -/

def ch1 (a : Nat) : Prop := a ≤ 0x7F

def ch2 (a b : Nat) : Prop := 0xC2 ≤ a ∧ a ≤ 0xDF ∧ contB b

/-- Second-byte constraint after a three-byte leader. -/
def snd3ok (a b : Nat) : Prop :=
  contB b ∧ (a = 0xE0 → 0xA0 ≤ b) ∧ (a = 0xED → b ≤ 0x9F)

/-- Second-byte constraint after a four-byte leader. -/
def snd4ok (a b : Nat) : Prop :=
  contB b ∧ (a = 0xF0 → 0x90 ≤ b) ∧ (a = 0xF4 → b ≤ 0x8F)

def ch3 (a b c : Nat) : Prop := 0xE0 ≤ a ∧ a ≤ 0xEF ∧ snd3ok a b ∧ contB c

def ch4 (a b c d : Nat) : Prop :=
  0xF0 ≤ a ∧ a ≤ 0xF4 ∧ snd4ok a b ∧ contB c ∧ contB d

/-- A single well-formed character. -/
inductive GoodCh : List Nat → Prop
  | one {a : Nat} : ch1 a → GoodCh [a]
  | two {a b : Nat} : ch2 a b → GoodCh [a, b]
  | three {a b c : Nat} : ch3 a b c → GoodCh [a, b, c]
  | four {a b c d : Nat} : ch4 a b c d → GoodCh [a, b, c, d]

/-- A well-formed sequence of complete characters. -/
def Chars (s : List Nat) : Prop :=
  ∃ cs : List (List Nat), (∀ c ∈ cs, GoodCh c) ∧ s = cs.flatten

/-- A pending (incomplete but so far consistent) character. -/
inductive PendCh : List Nat → Prop
  | nil : PendCh []
  | lead {a : Nat} : 0xC2 ≤ a → a ≤ 0xF4 → PendCh [a]
  | two3 {a b : Nat} : 0xE0 ≤ a → a ≤ 0xEF → snd3ok a b → PendCh [a, b]
  | two4 {a b : Nat} : 0xF0 ≤ a → a ≤ 0xF4 → snd4ok a b → PendCh [a, b]
  | three4 {a b c : Nat} : 0xF0 ≤ a → a ≤ 0xF4 → snd4ok a b → contB c →
      PendCh [a, b, c]

/-! List access helpers. -/

theorem getD_lt_256 (data : List Nat) (h : ∀ b ∈ data, b < 256) (i : Nat) :
    data.getD i 0 < 256 := by
  rcases Nat.lt_or_ge i data.length with hi | hi
  · rw [List.getD_eq_getElem?_getD, List.getElem?_eq_getElem hi]
    exact h _ (List.getElem_mem hi)
  · rw [List.getD_eq_default data 0 hi]
    omega

theorem ctxByte_lt_256 (data : List Nat) (h : ∀ b ∈ data, b < 256) (j k : Nat) :
    ctxByte data j k < 256 := by
  unfold ctxByte
  split_ifs
  · omega
  · exact getD_lt_256 data h _

theorem ctxByte_succ (data : List Nat) (j k : Nat) :
    ctxByte data (j + 1) (k + 1) = ctxByte data j k := by
  unfold ctxByte
  split_ifs with h1 h2 h2 <;> first | rfl | omega | (congr 1; omega)

theorem ctxByte_self (data : List Nat) (m k : Nat) (hk : 1 ≤ k) :
    ctxByte data (m + k) k = data.getD m 0 := by
  unfold ctxByte
  rw [if_neg (by omega)]
  congr 1
  omega

theorem getD_take (data : List Nat) (n j : Nat) (h : j < n) :
    (data.take n).getD j 0 = data.getD j 0 := by
  simp [List.getD_eq_getElem?_getD, List.getElem?_take, h]

theorem getD_concat (l1 l2 : List Nat) (j : Nat) (h : l1.length ≤ j) :
    (l1 ++ l2).getD j 0 = l2.getD (j - l1.length) 0 := by
  simp [List.getD_eq_getElem?_getD, List.getElem?_append_right h]

theorem seg_cons (data : List Nat) (m n : Nat) (hmn : m < n) (hn : n ≤ data.length) :
    (data.take n).drop m = data.getD m 0 :: (data.take n).drop (m + 1) := by
  have hlt : m < (data.take n).length := by simp; omega
  rw [List.drop_eq_getElem_cons hlt]
  congr 1
  rw [List.getElem_take]
  rw [List.getD_eq_getElem?_getD, List.getElem?_eq_getElem (by omega)]
  rfl

theorem seg_nil (data : List Nat) (m n : Nat) (h : n ≤ m) :
    (data.take n).drop m = [] := by
  apply List.drop_eq_nil_of_le
  simp
  omega

theorem ctx_eq_getD (data : List Nat) (j k : Nat) (hjk : k ≤ j) (r : Nat)
    (hr : j - k = r) : ctxByte data j k = data.getD r 0 := by
  unfold ctxByte
  rw [if_neg (by omega)]
  congr 1

theorem ctx_eq_ctx (data : List Nat) (j k j2 k2 : Nat) (h1 : (j < k) ↔ (j2 < k2))
    (h2 : j - k = j2 - k2) : ctxByte data j k = ctxByte data j2 k2 := by
  unfold ctxByte
  split_ifs with u v <;> first | rfl | omega | (congr 1 <;> omega)

theorem flSpec_cont (x : Nat) (h : x < 0xC0) : flSpec x = 0 := by
  unfold flSpec; split_ifs <;> omega

theorem flSpec_two (x : Nat) (h1 : 0xC2 ≤ x) (h2 : x ≤ 0xDF) : flSpec x = 1 := by
  unfold flSpec; split_ifs <;> omega

theorem flSpec_three (x : Nat) (h1 : 0xE0 ≤ x) (h2 : x ≤ 0xEF) : flSpec x = 2 := by
  unfold flSpec; split_ifs <;> omega

theorem flSpec_four (x : Nat) (h1 : 0xF0 ≤ x) (h2 : x ≤ 0xF4) : flSpec x = 3 := by
  unfold flSpec; split_ifs <;> omega

/-- Decomposition: any prefix of the stream on which every lane check
passes splits into complete well-formed characters followed by a pending
character of at most three bytes. -/
theorem decomp_aux (data : List Nat) (hbytes : ∀ b ∈ data, b < 256) (n : Nat)
    (hn : n ≤ data.length) (hok : ∀ j < n, laneOkAt data j) :
    ∀ d, ∀ m, m + d = n → BCtxAt data m →
      ∃ (cs : List (List Nat)) (p : List Nat), (∀ c ∈ cs, GoodCh c) ∧ PendCh p ∧
        (data.take n).drop m = cs.flatten ++ p := by
  intro d
  induction d using Nat.strong_induction_on with
  | _ d ih =>
    intro m hm hctx
    obtain ⟨hc1, hc2, hc3⟩ := hctx
    rcases Nat.eq_zero_or_pos d with hd0 | hdpos
    · refine ⟨[], [], fun c hc => absurd hc (List.not_mem_nil c), PendCh.nil, ?_⟩
      rw [seg_nil data m n (by omega)]
      rfl
    have hmn : m < n := by omega
    have ha256 : data.getD m 0 < 256 := getD_lt_256 data hbytes m
    have hlm := hok m hmn
    unfold laneOkAt at hlm
    have hstart := (lane_start _ _ _ _ (ctxByte_lt_256 data hbytes m 3)
      (ctxByte_lt_256 data hbytes m 2) (ctxByte_lt_256 data hbytes m 1) ha256
      hc1 hc2 hc3).mp hlm
    rcases hstart with hA | hL
    · -- one-byte (ASCII) character
      have hctx2 : BCtxAt data (m + 1) := by
        refine ⟨?_, ?_, ?_⟩
        · rw [ctx_eq_getD data (m + 1) 1 (by omega) m (by omega)]
          exact flSpec_cont _ (by omega)
        · rw [ctx_eq_ctx data (m + 1) 2 m 1 (by omega) (by omega)]
          omega
        · rw [ctx_eq_ctx data (m + 1) 3 m 2 (by omega) (by omega)]
          omega
      obtain ⟨cs, p, goods, pend, hseg⟩ := ih (d - 1) (by omega) (m + 1) (by omega) hctx2
      refine ⟨[data.getD m 0] :: cs, p, ?_, pend, ?_⟩
      · intro c hc
        rcases List.mem_cons.mp hc with hceq | hmem
        · subst hceq
          exact GoodCh.one hA
        · exact goods c hmem
      · rw [seg_cons data m n hmn hn, hseg]
        simp
    -- multi-byte leader: 0xC2 ≤ a ≤ 0xF4
    rcases Nat.lt_or_ge d 2 with hd1 | hd2
    · -- only the leader fits before n: pending of length 1
      refine ⟨[], [data.getD m 0], fun c hc => absurd hc (List.not_mem_nil c),
        PendCh.lead hL.1 hL.2, ?_⟩
      rw [seg_cons data m n hmn hn, seg_nil data (m + 1) n (by omega)]
      simp
    -- the second byte exists
    have hb256 : data.getD (m + 1) 0 < 256 := getD_lt_256 data hbytes (m + 1)
    have hlm1 := hok (m + 1) (by omega)
    unfold laneOkAt at hlm1
    rw [ctx_eq_getD data (m + 1) 1 (by omega) m (by omega),
      ctx_eq_ctx data (m + 1) 2 m 1 (by omega) (by omega),
      ctx_eq_ctx data (m + 1) 3 m 2 (by omega) (by omega)] at hlm1
    rcases (by omega : (0xC2 ≤ data.getD m 0 ∧ data.getD m 0 ≤ 0xDF) ∨
        (0xE0 ≤ data.getD m 0 ∧ data.getD m 0 ≤ 0xEF) ∨
        (0xF0 ≤ data.getD m 0 ∧ data.getD m 0 ≤ 0xF4)) with h2r | h3r | h4r
    · -- two-byte character
      have hcb : contB (data.getD (m + 1) 0) :=
        (lane_two2 _ _ _ _ (ctxByte_lt_256 data hbytes m 2)
          (ctxByte_lt_256 data hbytes m 1) ha256 hb256
          h2r.1 h2r.2 hc1 hc2).mp hlm1
      have hctx2 : BCtxAt data (m + 2) := by
        refine ⟨?_, ?_, ?_⟩
        · rw [ctx_eq_getD data (m + 2) 1 (by omega) (m + 1) (by omega)]
          exact flSpec_cont _ (by unfold contB at hcb; omega)
        · rw [ctx_eq_getD data (m + 2) 2 (by omega) m (by omega)]
          rw [flSpec_two _ h2r.1 h2r.2]
        · rw [ctx_eq_ctx data (m + 2) 3 m 1 (by omega) (by omega)]
          omega
      obtain ⟨cs, p, goods, pend, hseg⟩ := ih (d - 2) (by omega) (m + 2) (by omega) hctx2
      refine ⟨[data.getD m 0, data.getD (m + 1) 0] :: cs, p, ?_, pend, ?_⟩
      · intro c hc
        rcases List.mem_cons.mp hc with hceq | hmem
        · subst hceq
          exact GoodCh.two ⟨h2r.1, h2r.2, hcb⟩
        · exact goods c hmem
      · rw [seg_cons data m n hmn hn, seg_cons data (m + 1) n (by omega) hn, hseg]
        simp
    · -- three-byte character
      have hsnd : snd3ok (data.getD m 0) (data.getD (m + 1) 0) :=
        (lane_three2 _ _ _ _ (ctxByte_lt_256 data hbytes m 2)
          (ctxByte_lt_256 data hbytes m 1) ha256 hb256
          h3r.1 h3r.2 hc1 hc2).mp hlm1
      rcases Nat.lt_or_ge d 3 with hd2' | hd3
      · -- pending of length 2
        refine ⟨[], [data.getD m 0, data.getD (m + 1) 0],
          fun c hc => absurd hc (List.not_mem_nil c),
          PendCh.two3 h3r.1 h3r.2 hsnd, ?_⟩
        rw [seg_cons data m n hmn hn, seg_cons data (m + 1) n (by omega) hn,
          seg_nil data (m + 2) n (by omega)]
        simp
      -- the third byte exists
      have hc256 : data.getD (m + 2) 0 < 256 := getD_lt_256 data hbytes (m + 2)
      have hlm2 := hok (m + 2) (by omega)
      unfold laneOkAt at hlm2
      rw [ctx_eq_getD data (m + 2) 1 (by omega) (m + 1) (by omega),
        ctx_eq_getD data (m + 2) 2 (by omega) m (by omega),
        ctx_eq_ctx data (m + 2) 3 m 1 (by omega) (by omega)] at hlm2
      have hcc : contB (data.getD (m + 2) 0) :=
        (lane_three3 _ _ _ _ (ctxByte_lt_256 data hbytes m 1) ha256 hb256 hc256
          hsnd.1 h3r.1 h3r.2 hc1).mp hlm2
      have hctx3 : BCtxAt data (m + 3) := by
        refine ⟨?_, ?_, ?_⟩
        · rw [ctx_eq_getD data (m + 3) 1 (by omega) (m + 2) (by omega)]
          exact flSpec_cont _ (by unfold contB at hcc; omega)
        · rw [ctx_eq_getD data (m + 3) 2 (by omega) (m + 1) (by omega)]
          have := hsnd.1
          rw [flSpec_cont _ (by unfold contB at this; omega)]
          omega
        · rw [ctx_eq_getD data (m + 3) 3 (by omega) m (by omega)]
          rw [flSpec_three _ h3r.1 h3r.2]
      obtain ⟨cs, p, goods, pend, hseg⟩ := ih (d - 3) (by omega) (m + 3) (by omega) hctx3
      refine ⟨[data.getD m 0, data.getD (m + 1) 0, data.getD (m + 2) 0] :: cs, p,
        ?_, pend, ?_⟩
      · intro c hc
        rcases List.mem_cons.mp hc with hceq | hmem
        · subst hceq
          exact GoodCh.three ⟨h3r.1, h3r.2, hsnd, hcc⟩
        · exact goods c hmem
      · rw [seg_cons data m n hmn hn, seg_cons data (m + 1) n (by omega) hn,
          seg_cons data (m + 2) n (by omega) hn, hseg]
        simp
    · -- four-byte character
      have hsnd : snd4ok (data.getD m 0) (data.getD (m + 1) 0) :=
        (lane_four2 _ _ _ _ (ctxByte_lt_256 data hbytes m 2)
          (ctxByte_lt_256 data hbytes m 1) ha256 hb256
          h4r.1 h4r.2 hc1 hc2).mp hlm1
      rcases Nat.lt_or_ge d 3 with hd2' | hd3
      · -- pending of length 2
        refine ⟨[], [data.getD m 0, data.getD (m + 1) 0],
          fun c hc => absurd hc (List.not_mem_nil c),
          PendCh.two4 h4r.1 h4r.2 hsnd, ?_⟩
        rw [seg_cons data m n hmn hn, seg_cons data (m + 1) n (by omega) hn,
          seg_nil data (m + 2) n (by omega)]
        simp
      -- the third byte exists
      have hc256 : data.getD (m + 2) 0 < 256 := getD_lt_256 data hbytes (m + 2)
      have hlm2 := hok (m + 2) (by omega)
      unfold laneOkAt at hlm2
      rw [ctx_eq_getD data (m + 2) 1 (by omega) (m + 1) (by omega),
        ctx_eq_getD data (m + 2) 2 (by omega) m (by omega),
        ctx_eq_ctx data (m + 2) 3 m 1 (by omega) (by omega)] at hlm2
      have hcc : contB (data.getD (m + 2) 0) :=
        (lane_four3 _ _ _ _ (ctxByte_lt_256 data hbytes m 1) ha256 hb256 hc256
          hsnd.1 h4r.1 h4r.2 hc1).mp hlm2
      rcases Nat.lt_or_ge d 4 with hd3' | hd4
      · -- pending of length 3
        refine ⟨[], [data.getD m 0, data.getD (m + 1) 0, data.getD (m + 2) 0],
          fun c hc => absurd hc (List.not_mem_nil c),
          PendCh.three4 h4r.1 h4r.2 hsnd hcc, ?_⟩
        rw [seg_cons data m n hmn hn, seg_cons data (m + 1) n (by omega) hn,
          seg_cons data (m + 2) n (by omega) hn, seg_nil data (m + 3) n (by omega)]
        simp
      -- the fourth byte exists
      have hd256 : data.getD (m + 3) 0 < 256 := getD_lt_256 data hbytes (m + 3)
      have hlm3 := hok (m + 3) (by omega)
      unfold laneOkAt at hlm3
      rw [ctx_eq_getD data (m + 3) 1 (by omega) (m + 2) (by omega),
        ctx_eq_getD data (m + 3) 2 (by omega) (m + 1) (by omega),
        ctx_eq_getD data (m + 3) 3 (by omega) m (by omega)] at hlm3
      have hcd : contB (data.getD (m + 3) 0) :=
        (lane_four4 _ _ _ _ ha256 hb256 hc256 hd256
          hcc hsnd.1 h4r.1 h4r.2).mp hlm3
      have hctx4 : BCtxAt data (m + 4) := by
        refine ⟨?_, ?_, ?_⟩
        · rw [ctx_eq_getD data (m + 4) 1 (by omega) (m + 3) (by omega)]
          exact flSpec_cont _ (by unfold contB at hcd; omega)
        · rw [ctx_eq_getD data (m + 4) 2 (by omega) (m + 2) (by omega)]
          rw [flSpec_cont _ (by unfold contB at hcc; omega)]
          omega
        · rw [ctx_eq_getD data (m + 4) 3 (by omega) (m + 1) (by omega)]
          have := hsnd.1
          rw [flSpec_cont _ (by unfold contB at this; omega)]
          omega
      obtain ⟨cs, p, goods, pend, hseg⟩ := ih (d - 4) (by omega) (m + 4) (by omega) hctx4
      refine ⟨[data.getD m 0, data.getD (m + 1) 0, data.getD (m + 2) 0,
        data.getD (m + 3) 0] :: cs, p, ?_, pend, ?_⟩
      · intro c hc
        rcases List.mem_cons.mp hc with hceq | hmem
        · subst hceq
          exact GoodCh.four ⟨h4r.1, h4r.2, hsnd, hcc, hcd⟩
        · exact goods c hmem
      · rw [seg_cons data m n hmn hn, seg_cons data (m + 1) n (by omega) hn,
          seg_cons data (m + 2) n (by omega) hn,
          seg_cons data (m + 3) n (by omega) hn, hseg]
        simp

/-! Scalar-validator lemmas: consuming one well-formed character, a list of
them, and shifting the error base. -/

theorem naive_go_char (c rest : List Nat) (e : Nat) (hc : GoodCh c) :
    naive_go (c ++ rest) e = naive_go rest (e + c.length) := by
  cases hc with
  | one h =>
    unfold ch1 at h
    simp only [List.cons_append, List.nil_append, List.length_cons,
      List.length_nil]
    rw [naive_go.eq_def]
    simp only []
    rw [if_pos h]
  | two h =>
    obtain ⟨ha1, ha2, hb⟩ := h
    have hbOk : contOk _ := (contOk_iff _ (by unfold contB at hb; omega)).mpr hb
    simp only [List.cons_append, List.nil_append, List.length_cons,
      List.length_nil]
    rw [naive_go.eq_def]
    simp only []
    rw [if_neg (by omega), if_pos ⟨ha1, ha2, hbOk⟩]
  | @three a b c h =>
    obtain ⟨ha1, ha2, hsnd, hcC⟩ := h
    obtain ⟨hb, hE0, hED⟩ := hsnd
    have hbOk : contOk b := (contOk_iff _ (by unfold contB at hb; omega)).mpr hb
    have hcOk : contOk c := (contOk_iff _ (by unfold contB at hcC; omega)).mpr hcC
    have hdisj : (a = 0xE0 ∧ 0xA0 ≤ b) ∨ (0xE1 ≤ a ∧ a ≤ 0xEC) ∨
        (a = 0xED ∧ b ≤ 0x9F) ∨ (0xEE ≤ a ∧ a ≤ 0xEF) := by
      by_cases he : a = 0xE0
      · exact Or.inl ⟨he, hE0 he⟩
      · by_cases hed : a = 0xED
        · exact Or.inr (Or.inr (Or.inl ⟨hed, hED hed⟩))
        · omega
    simp only [List.cons_append, List.nil_append, List.length_cons,
      List.length_nil]
    rw [naive_go.eq_def]
    simp only []
    rw [if_neg (by omega), if_neg (by rintro ⟨-, h2, -⟩; omega),
      if_pos ⟨hbOk, hcOk, hdisj⟩]
  | @four a b c d h =>
    obtain ⟨ha1, ha2, hsnd, hcC, hcD⟩ := h
    obtain ⟨hb, hF0, hF4⟩ := hsnd
    have hbOk : contOk b := (contOk_iff _ (by unfold contB at hb; omega)).mpr hb
    have hcOk : contOk c := (contOk_iff _ (by unfold contB at hcC; omega)).mpr hcC
    have hdOk : contOk d := (contOk_iff _ (by unfold contB at hcD; omega)).mpr hcD
    have hdisj : (a = 0xF0 ∧ 0x90 ≤ b) ∨ (0xF1 ≤ a ∧ a ≤ 0xF3) ∨
        (a = 0xF4 ∧ b ≤ 0x8F) := by
      by_cases hf : a = 0xF0
      · exact Or.inl ⟨hf, hF0 hf⟩
      · by_cases hf4 : a = 0xF4
        · exact Or.inr (Or.inr ⟨hf4, hF4 hf4⟩)
        · omega
    simp only [List.cons_append, List.nil_append, List.length_cons,
      List.length_nil]
    rw [naive_go.eq_def]
    simp only []
    rw [if_neg (by omega), if_neg (by rintro ⟨-, h2, -⟩; omega),
      if_neg (by
        rintro ⟨-, -, h⟩
        rcases h with ⟨h1, -⟩ | ⟨h1, h2⟩ | ⟨h1, -⟩ | ⟨h1, h2⟩ <;> omega),
      if_pos ⟨hbOk, hcOk, hdOk, hdisj⟩]

theorem naive_go_chars (cs : List (List Nat)) (h : ∀ c ∈ cs, GoodCh c)
    (rest : List Nat) (e : Nat) :
    naive_go (cs.flatten ++ rest) e = naive_go rest (e + cs.flatten.length) := by
  induction cs generalizing e with
  | nil => simp
  | cons c cs ihcs =>
    have hgc : GoodCh c := h c (by simp)
    have hcs : ∀ c ∈ cs, GoodCh c := fun c hc => h c (by simp [hc])
    rw [List.flatten_cons, List.append_assoc, naive_go_char c _ e hgc,
      ihcs hcs (e + c.length)]
    congr 1
    simp
    omega

theorem map_add_add (g : Option Nat) (u v w : Nat) (h : u + v = w) :
    (g.map (· + u)).map (· + v) = g.map (· + w) := by
  cases g <;> simp <;> omega

theorem naive_go_add_aux : ∀ (L : Nat) (s : List Nat), s.length ≤ L → ∀ e : Nat,
    naive_go s e = (naive_go s 0).map (· + e) := by
  intro L
  induction L with
  | zero =>
    intro s hs e
    have : s = [] := by cases s <;> simp_all
    subst this
    simp [naive_go]
  | succ L ihL =>
    intro s hs e
    rcases s with _ | ⟨b1, rest⟩
    · simp [naive_go]
    rcases rest with _ | ⟨b2, rest2⟩
    · rw [naive_go.eq_def]
      conv_rhs => rw [naive_go.eq_def]
      simp only []
      split_ifs
      · simp [naive_go]
      · simp
    rcases rest2 with _ | ⟨b3, rest3⟩
    · rw [naive_go.eq_def]
      conv_rhs => rw [naive_go.eq_def]
      simp only []
      split_ifs
      · rw [ihL (b2 :: []) (by simp at hs ⊢; omega) (e + 1),
          ihL (b2 :: []) (by simp at hs ⊢; omega) (0 + 1)]
        exact (map_add_add _ _ _ _ (by omega)).symm
      · simp [naive_go]
      · simp
    rcases rest3 with _ | ⟨b4, rest4⟩
    · rw [naive_go.eq_def]
      conv_rhs => rw [naive_go.eq_def]
      simp only []
      split_ifs
      · rw [ihL (b2 :: b3 :: []) (by simp at hs ⊢; omega) (e + 1),
          ihL (b2 :: b3 :: []) (by simp at hs ⊢; omega) (0 + 1)]
        exact (map_add_add _ _ _ _ (by omega)).symm
      · rw [ihL (b3 :: []) (by simp at hs ⊢; omega) (e + 2),
          ihL (b3 :: []) (by simp at hs ⊢; omega) (0 + 2)]
        exact (map_add_add _ _ _ _ (by omega)).symm
      · simp [naive_go]
      · simp
    · rw [naive_go.eq_def]
      conv_rhs => rw [naive_go.eq_def]
      simp only []
      split_ifs
      · rw [ihL (b2 :: b3 :: b4 :: rest4) (by simp at hs ⊢; omega) (e + 1),
          ihL (b2 :: b3 :: b4 :: rest4) (by simp at hs ⊢; omega) (0 + 1)]
        exact (map_add_add _ _ _ _ (by omega)).symm
      · rw [ihL (b3 :: b4 :: rest4) (by simp at hs ⊢; omega) (e + 2),
          ihL (b3 :: b4 :: rest4) (by simp at hs ⊢; omega) (0 + 2)]
        exact (map_add_add _ _ _ _ (by omega)).symm
      · rw [ihL (b4 :: rest4) (by simp at hs ⊢; omega) (e + 3),
          ihL (b4 :: rest4) (by simp at hs ⊢; omega) (0 + 3)]
        exact (map_add_add _ _ _ _ (by omega)).symm
      · rw [ihL rest4 (by simp at hs ⊢; omega) (e + 4),
          ihL rest4 (by simp at hs ⊢; omega) (0 + 4)]
        exact (map_add_add _ _ _ _ (by omega)).symm
      · simp

theorem naive_go_add (s : List Nat) (e : Nat) :
    naive_go s e = (naive_go s 0).map (· + e) :=
  naive_go_add_aux s.length s (le_refl _) e

/-! The vector-loop invariant: the cursor moves in 32-byte steps, every
consumed position passed its lane check, `prev_input` holds the last 32
consumed bytes and `err_idx` equals the consumed byte count plus one. -/

/-- `prev_input` tracks the 32 bytes before the cursor (zeros initially). -/
def pinOk (data : List Nat) (off : Nat) (pin : Vec) : Prop :=
  ∀ i < 32, pin i = ctxByte data (off + i) 32

theorem getD_drop (data : List Nat) (off i : Nat) :
    (data.drop off).getD i 0 = data.getD (off + i) 0 := by
  simp [List.getD_eq_getElem?_getD, List.getElem?_drop]

theorem vloop_invariant :
    ∀ (fuel : Nat) (data : List Nat) (off : Nat) (pin pfl : Vec) (err : Nat),
    (∀ b ∈ data, b < 256) →
    data.length ≤ off + fuel →
    off % 32 = 0 →
    off ≤ data.length →
    pinOk data off pin →
    (∀ i < 32, pfl i = laneFL (pin i)) →
    err = off + 1 →
    (∀ j < off, laneOkAt data j) →
    (vloop fuel data off pin pfl err).1 % 32 = 0 ∧
      off ≤ (vloop fuel data off pin pfl err).1 ∧
      (vloop fuel data off pin pfl err).1 ≤ data.length ∧
      pinOk data (vloop fuel data off pin pfl err).1
        (vloop fuel data off pin pfl err).2.1 ∧
      (vloop fuel data off pin pfl err).2.2 = (vloop fuel data off pin pfl err).1 + 1 ∧
      (∀ j < (vloop fuel data off pin pfl err).1, laneOkAt data j) := by
  intro fuel
  induction fuel with
  | zero =>
    intro data off pin pfl err hbytes hfuel h32 hoffle hpin hpfl herr hok
    exact ⟨h32, le_refl _, hoffle, hpin, herr, hok⟩
  | succ fuel ih =>
    intro data off pin pfl err hbytes hfuel h32 hoffle hpin hpfl herr hok
    rw [vloop]
    by_cases hrem : 32 ≤ data.length - off
    · rw [if_pos hrem]
      have hinl : ∀ i, loadu (data.drop off) i = data.getD (off + i) 0 := by
        intro i
        unfold loadu
        exact getD_drop data off i
      have hin256 : ∀ j < 32, loadu (data.drop off) j < 256 := by
        intro j _
        rw [hinl j]
        exact getD_lt_256 data hbytes _
      have hpin256 : ∀ j < 32, pin j < 256 := by
        intro j hj
        rw [hpin j hj]
        exact ctxByte_lt_256 data hbytes _ _
      by_cases hblk : block_has_error pin pfl (loadu (data.drop off)) = true
      · rw [if_pos hblk]
        exact ⟨h32, le_refl _, hoffle, hpin, herr, hok⟩
      · rw [if_neg hblk]
        have hokblk := (block_has_error_false_iff pin pfl (loadu (data.drop off))
          hin256 hpin256 hpfl).mp (by simpa using hblk)
        have hpv : ∀ k i, 1 ≤ k → k ≤ 3 → i < 32 →
            pv pin (loadu (data.drop off)) k i = ctxByte data (off + i) k := by
          intro k i hk1 hk3 hi
          unfold pv
          split_ifs with h
          · rw [hpin (32 - k + i) (by omega)]
            exact ctx_eq_ctx data (off + (32 - k + i)) 32 (off + i) k
              (by omega) (by omega)
          · rw [hinl (i - k)]
            rw [ctx_eq_getD data (off + i) k (by omega) (off + (i - k)) (by omega)]
        have hok32 : ∀ j < off + 32, laneOkAt data j := by
          intro j hj
          rcases Nat.lt_or_ge j off with hjo | hjo
          · exact hok j hjo
          · have hi : j - off < 32 := by omega
            have := hokblk (j - off) hi
            rw [hpv 3 (j - off) (by omega) (by omega) hi,
              hpv 2 (j - off) (by omega) (by omega) hi,
              hpv 1 (j - off) (by omega) (by omega) hi,
              hinl (j - off)] at this
            unfold laneOkAt
            have hjj : off + (j - off) = j := by omega
            rw [hjj] at this
            exact this
        have hres := ih data (off + 32) (loadu (data.drop off))
          (v_first_len (loadu (data.drop off))) (err + 32) hbytes
          (by omega) (by omega) (by omega)
          (by
            intro i hi
            rw [hinl i]
            rw [ctx_eq_getD data (off + 32 + i) 32 (by omega) (off + i) (by omega)])
          (by
            intro i hi
            exact v_first_len_lane (loadu (data.drop off)) hin256 i hi)
          (by omega) hok32
        refine ⟨hres.1, ?_, hres.2.2.1, hres.2.2.2.1, hres.2.2.2.2.1,
          hres.2.2.2.2.2⟩
        have := hres.2.1
        omega
    · rw [if_neg hrem]
      exact ⟨h32, le_refl _, hoffle, hpin, herr, hok⟩

/-- The post-loop rewind amount in terms of the last three bytes of
`prev_input`. -/
theorem lookahead_eq (pin : Vec) (h : ∀ i, 28 ≤ i → i < 32 → pin i < 256) :
    lookahead pin =
      if ¬contB (pin 31) then 1
      else if ¬contB (pin 30) then 2
      else if ¬contB (pin 29) then 3
      else 0 := by
  have h28 := h 28 (by omega) (by omega)
  have h29 := h 29 (by omega) (by omega)
  have h30 := h 30 (by omega) (by omega)
  have h31 := h 31 (by omega) (by omega)
  have hsig : ∀ x < 256, (toSigned 0xBF < toSigned x ↔ ¬contB x) := by decide
  simp only [lookahead, extract_epi32_7, Nat.mod_eq_of_lt h28,
    Nat.mod_eq_of_lt h29, Nat.mod_eq_of_lt h30, Nat.mod_eq_of_lt h31]
  have e3 : (pin 28 + pin 29 * 256 + pin 30 * 65536 + pin 31 * 16777216) /
      256 ^ 3 % 256 = pin 31 := by
    norm_num
    omega
  have e2 : (pin 28 + pin 29 * 256 + pin 30 * 65536 + pin 31 * 16777216) /
      256 ^ 2 % 256 = pin 30 := by
    norm_num
    omega
  have e1 : (pin 28 + pin 29 * 256 + pin 30 * 65536 + pin 31 * 16777216) /
      256 ^ 1 % 256 = pin 29 := by
    norm_num
    omega
  simp only [e3, e2, e1]
  have hyes : ∀ x, x < 256 → contB x → ¬(toSigned 0xBF < toSigned x) :=
    fun x hx hc hlt => ((hsig x hx).mp hlt) hc
  have hno : ∀ x, x < 256 → ¬contB x → toSigned 0xBF < toSigned x :=
    fun x hx hc => (hsig x hx).mpr hc
  by_cases hc31 : contB (pin 31)
  · rw [if_neg (hyes _ h31 hc31), if_neg (show ¬¬contB (pin 31) by simp [hc31])]
    by_cases hc30 : contB (pin 30)
    · rw [if_neg (hyes _ h30 hc30), if_neg (show ¬¬contB (pin 30) by simp [hc30])]
      by_cases hc29 : contB (pin 29)
      · rw [if_neg (hyes _ h29 hc29), if_neg (show ¬¬contB (pin 29) by simp [hc29])]
      · rw [if_pos (hno _ h29 hc29), if_pos hc29]
    · rw [if_pos (hno _ h30 hc30), if_pos hc30]
  · rw [if_pos (hno _ h31 hc31), if_pos hc31]

/-! The rewind lands on a character boundary. -/

theorem take_getD_at (data : List Nat) (off : Nat) (pre suf : List Nat)
    (hseg : data.take off = pre ++ suf) (j : Nat)
    (hj : pre.length ≤ j) (hjo : j < off) :
    data.getD j 0 = suf.getD (j - pre.length) 0 := by
  rw [← getD_take data off j hjo, hseg, getD_concat _ _ _ hj]

theorem take_boundary (data : List Nat) (off : Nat) (pre suf : List Nat)
    (hseg : data.take off = pre ++ suf) (hlen : pre.length + suf.length = off) :
    data.take (off - suf.length) = pre := by
  have h1 : data.take (off - suf.length) = (data.take off).take (off - suf.length) := by
    rw [List.take_take]
    congr 1
    omega
  rw [h1, hseg]
  have h2 : off - suf.length = pre.length := by omega
  rw [h2, List.take_left]

/-- Main rewind lemma: after a lane-checked prefix of length `off ≥ 32`,
rewinding by the amount determined by the last three bytes leaves a prefix
that is a sequence of complete well-formed characters. -/
theorem rewind_boundary (data : List Nat) (hbytes : ∀ b ∈ data, b < 256)
    (off : Nat) (hoff : 32 ≤ off) (hoffle : off ≤ data.length)
    (hok : ∀ j < off, laneOkAt data j) (k : Nat)
    (hk : k = if ¬contB (data.getD (off - 1) 0) then 1
      else if ¬contB (data.getD (off - 2) 0) then 2
      else if ¬contB (data.getD (off - 3) 0) then 3
      else 0) :
    k ≤ 3 ∧ k ≤ off ∧ Chars (data.take (off - k)) := by
  have hB : BCtxAt data 0 := by
    refine ⟨?_, ?_, ?_⟩ <;>
      (unfold ctxByte; rw [if_pos (by omega)]; decide)
  obtain ⟨cs, p, goods, pend, hseg⟩ :=
    decomp_aux data hbytes off hoffle hok off 0 (by omega) hB
  rw [List.drop_zero] at hseg
  have hlen : cs.flatten.length + p.length = off := by
    have := congrArg List.length hseg
    simp only [List.length_append] at this
    rw [List.length_take] at this
    omega
  cases pend with
  | nil =>
    -- the prefix ends in a complete character; inspect the last one
    simp only [List.append_nil] at hseg
    have hcs : cs ≠ [] := by
      intro hnil
      rw [hnil] at hlen
      simp at hlen
      omega
    rcases List.eq_nil_or_concat cs with hnil | ⟨L, c, hcat⟩
    · exact absurd hnil hcs
    subst hcat
    have hseg2 : data.take off = L.flatten ++ c := by
      rw [hseg]
      simp
    have hlen2 : L.flatten.length + c.length = off := by
      have := congrArg List.length hseg2
      simp only [List.length_append] at this
      rw [List.length_take] at this
      omega
    have goodsL : ∀ x ∈ L, GoodCh x := fun x hx => goods x (by simp [hx])
    have hgc : GoodCh c := goods c (by simp)
    cases hgc with
    | @one a h =>
      have hb1 : data.getD (off - 1) 0 = a := by
        rw [take_getD_at data off L.flatten [a] hseg2 (off - 1)
          (by simp at hlen2 ⊢; omega) (by omega)]
        have : off - 1 - L.flatten.length = 0 := by simp at hlen2 ⊢; omega
        rw [this]
        rfl
      have hkv : k = 1 := by
        rw [hk, hb1, if_pos (by unfold contB ch1 at *; omega)]
      refine ⟨by omega, by omega, ?_⟩
      rw [hkv]
      have : data.take (off - 1) = L.flatten := by
        have := take_boundary data off L.flatten [a] hseg2 (by simpa using hlen2)
        simpa using this
      rw [this]
      exact ⟨L, goodsL, rfl⟩
    | @two a b h =>
      have hb1 : data.getD (off - 1) 0 = b := by
        rw [take_getD_at data off L.flatten [a, b] hseg2 (off - 1)
          (by simp at hlen2 ⊢; omega) (by omega)]
        have : off - 1 - L.flatten.length = 1 := by simp at hlen2 ⊢; omega
        rw [this]
        rfl
      have hb2 : data.getD (off - 2) 0 = a := by
        rw [take_getD_at data off L.flatten [a, b] hseg2 (off - 2)
          (by simp at hlen2 ⊢; omega) (by omega)]
        have : off - 2 - L.flatten.length = 0 := by simp at hlen2 ⊢; omega
        rw [this]
        rfl
      obtain ⟨ha1, ha2, hcb⟩ := h
      have hkv : k = 2 := by
        rw [hk, hb1, hb2, if_neg (by simp [hcb]), if_pos (by unfold contB; omega)]
      refine ⟨by omega, by omega, ?_⟩
      rw [hkv]
      have : data.take (off - 2) = L.flatten := by
        have := take_boundary data off L.flatten [a, b] hseg2 (by simpa using hlen2)
        simpa using this
      rw [this]
      exact ⟨L, goodsL, rfl⟩
    | @three a b c h =>
      have hb1 : data.getD (off - 1) 0 = c := by
        rw [take_getD_at data off L.flatten [a, b, c] hseg2 (off - 1)
          (by simp at hlen2 ⊢; omega) (by omega)]
        have : off - 1 - L.flatten.length = 2 := by simp at hlen2 ⊢; omega
        rw [this]
        rfl
      have hb2 : data.getD (off - 2) 0 = b := by
        rw [take_getD_at data off L.flatten [a, b, c] hseg2 (off - 2)
          (by simp at hlen2 ⊢; omega) (by omega)]
        have : off - 2 - L.flatten.length = 1 := by simp at hlen2 ⊢; omega
        rw [this]
        rfl
      have hb3 : data.getD (off - 3) 0 = a := by
        rw [take_getD_at data off L.flatten [a, b, c] hseg2 (off - 3)
          (by simp at hlen2 ⊢; omega) (by omega)]
        have : off - 3 - L.flatten.length = 0 := by simp at hlen2 ⊢; omega
        rw [this]
        rfl
      obtain ⟨ha1, ha2, hsnd, hcC⟩ := h
      have hkv : k = 3 := by
        rw [hk, hb1, hb2, hb3, if_neg (by simp [hcC]), if_neg (by simp [hsnd.1]),
          if_pos (by unfold contB; omega)]
      refine ⟨by omega, by omega, ?_⟩
      rw [hkv]
      have : data.take (off - 3) = L.flatten := by
        have := take_boundary data off L.flatten [a, b, c] hseg2 (by simpa using hlen2)
        simpa using this
      rw [this]
      exact ⟨L, goodsL, rfl⟩
    | @four a b c d h =>
      have hb1 : data.getD (off - 1) 0 = d := by
        rw [take_getD_at data off L.flatten [a, b, c, d] hseg2 (off - 1)
          (by simp at hlen2 ⊢; omega) (by omega)]
        have : off - 1 - L.flatten.length = 3 := by simp at hlen2 ⊢; omega
        rw [this]
        rfl
      have hb2 : data.getD (off - 2) 0 = c := by
        rw [take_getD_at data off L.flatten [a, b, c, d] hseg2 (off - 2)
          (by simp at hlen2 ⊢; omega) (by omega)]
        have : off - 2 - L.flatten.length = 2 := by simp at hlen2 ⊢; omega
        rw [this]
        rfl
      have hb3 : data.getD (off - 3) 0 = b := by
        rw [take_getD_at data off L.flatten [a, b, c, d] hseg2 (off - 3)
          (by simp at hlen2 ⊢; omega) (by omega)]
        have : off - 3 - L.flatten.length = 1 := by simp at hlen2 ⊢; omega
        rw [this]
        rfl
      obtain ⟨ha1, ha2, hsnd, hcC, hcD⟩ := h
      have hkv : k = 0 := by
        rw [hk, hb1, hb2, hb3, if_neg (by simp [hcD]), if_neg (by simp [hcC]),
          if_neg (by simp [hsnd.1])]
      refine ⟨by omega, by omega, ?_⟩
      rw [hkv]
      exact ⟨L.concat [a, b, c, d], goods, hseg⟩
  | @lead a ha1 ha2 =>
    have hb1 : data.getD (off - 1) 0 = a := by
      rw [take_getD_at data off cs.flatten [a] hseg (off - 1)
        (by simp at hlen ⊢; omega) (by omega)]
      have : off - 1 - cs.flatten.length = 0 := by simp at hlen ⊢; omega
      rw [this]
      rfl
    have hkv : k = 1 := by
      rw [hk, hb1, if_pos (by unfold contB; omega)]
    refine ⟨by omega, by omega, ?_⟩
    rw [hkv]
    have : data.take (off - 1) = cs.flatten := by
      have := take_boundary data off cs.flatten [a] hseg (by simpa using hlen)
      simpa using this
    rw [this]
    exact ⟨cs, goods, rfl⟩
  | @two3 a b ha1 ha2 hsnd =>
    have hb1 : data.getD (off - 1) 0 = b := by
      rw [take_getD_at data off cs.flatten [a, b] hseg (off - 1)
        (by simp at hlen ⊢; omega) (by omega)]
      have : off - 1 - cs.flatten.length = 1 := by simp at hlen ⊢; omega
      rw [this]
      rfl
    have hb2 : data.getD (off - 2) 0 = a := by
      rw [take_getD_at data off cs.flatten [a, b] hseg (off - 2)
        (by simp at hlen ⊢; omega) (by omega)]
      have : off - 2 - cs.flatten.length = 0 := by simp at hlen ⊢; omega
      rw [this]
      rfl
    have hkv : k = 2 := by
      rw [hk, hb1, hb2, if_neg (by simp [hsnd.1]), if_pos (by unfold contB; omega)]
    refine ⟨by omega, by omega, ?_⟩
    rw [hkv]
    have : data.take (off - 2) = cs.flatten := by
      have := take_boundary data off cs.flatten [a, b] hseg (by simpa using hlen)
      simpa using this
    rw [this]
    exact ⟨cs, goods, rfl⟩
  | @two4 a b ha1 ha2 hsnd =>
    have hb1 : data.getD (off - 1) 0 = b := by
      rw [take_getD_at data off cs.flatten [a, b] hseg (off - 1)
        (by simp at hlen ⊢; omega) (by omega)]
      have : off - 1 - cs.flatten.length = 1 := by simp at hlen ⊢; omega
      rw [this]
      rfl
    have hb2 : data.getD (off - 2) 0 = a := by
      rw [take_getD_at data off cs.flatten [a, b] hseg (off - 2)
        (by simp at hlen ⊢; omega) (by omega)]
      have : off - 2 - cs.flatten.length = 0 := by simp at hlen ⊢; omega
      rw [this]
      rfl
    have hkv : k = 2 := by
      rw [hk, hb1, hb2, if_neg (by simp [hsnd.1]), if_pos (by unfold contB; omega)]
    refine ⟨by omega, by omega, ?_⟩
    rw [hkv]
    have : data.take (off - 2) = cs.flatten := by
      have := take_boundary data off cs.flatten [a, b] hseg (by simpa using hlen)
      simpa using this
    rw [this]
    exact ⟨cs, goods, rfl⟩
  | @three4 a b c ha1 ha2 hsnd hcC =>
    have hb1 : data.getD (off - 1) 0 = c := by
      rw [take_getD_at data off cs.flatten [a, b, c] hseg (off - 1)
        (by simp at hlen ⊢; omega) (by omega)]
      have : off - 1 - cs.flatten.length = 2 := by simp at hlen ⊢; omega
      rw [this]
      rfl
    have hb2 : data.getD (off - 2) 0 = b := by
      rw [take_getD_at data off cs.flatten [a, b, c] hseg (off - 2)
        (by simp at hlen ⊢; omega) (by omega)]
      have : off - 2 - cs.flatten.length = 1 := by simp at hlen ⊢; omega
      rw [this]
      rfl
    have hb3 : data.getD (off - 3) 0 = a := by
      rw [take_getD_at data off cs.flatten [a, b, c] hseg (off - 3)
        (by simp at hlen ⊢; omega) (by omega)]
      have : off - 3 - cs.flatten.length = 0 := by simp at hlen ⊢; omega
      rw [this]
      rfl
    have hkv : k = 3 := by
      rw [hk, hb1, hb2, hb3, if_neg (by simp [hcC]), if_neg (by simp [hsnd.1]),
        if_pos (by unfold contB; omega)]
    refine ⟨by omega, by omega, ?_⟩
    rw [hkv]
    have : data.take (off - 3) = cs.flatten := by
      have := take_boundary data off cs.flatten [a, b, c] hseg (by simpa using hlen)
      simpa using this
    rw [this]
    exact ⟨cs, goods, rfl⟩

/-- The central equivalence: the SIMD validator computes exactly the result
of the scalar validator, both the verdict and the error index. -/
theorem valid_res_eq_naive (data : List Nat) (hbytes : ∀ b ∈ data, b < 256) :
    valid_res data = naive_go data 0 := by
  simp only [valid_res]
  by_cases h32 : 32 ≤ data.length
  · rw [if_pos h32]
    have hinv := vloop_invariant data.length data 0 (set1 0) (set1 0) 1 hbytes
      (by omega) (by omega) (by omega)
      (by
        intro i hi
        unfold set1 ctxByte
        rw [if_pos (by omega)])
      (by
        intro i hi
        unfold set1
        decide)
      rfl
      (fun j hj => absurd hj (by omega))
    obtain ⟨hmod, h0le, hoffle, hpin, herr, hok⟩ := hinv
    by_cases h1 : (vloop data.length data 0 (set1 0) (set1 0) 1).2.2 = 1
    · rw [if_pos h1]
      cases hg : naive_go data 0
      · rfl
      · show some _ = _
        congr 1
        omega
    · rw [if_neg h1]
      have hoff32 : 32 ≤ (vloop data.length data 0 (set1 0) (set1 0) 1).1 := by
        omega
      have hpin256 : ∀ i, 28 ≤ i → i < 32 →
          (vloop data.length data 0 (set1 0) (set1 0) 1).2.1 i < 256 := by
        intro i _ hi
        rw [hpin i hi]
        exact ctxByte_lt_256 data hbytes _ _
      have hk := lookahead_eq (vloop data.length data 0 (set1 0) (set1 0) 1).2.1
        hpin256
      have hp31 : (vloop data.length data 0 (set1 0) (set1 0) 1).2.1 31 =
          data.getD ((vloop data.length data 0 (set1 0) (set1 0) 1).1 - 1) 0 := by
        rw [hpin 31 (by omega)]
        exact ctx_eq_getD data _ 32 (by omega) _ (by omega)
      have hp30 : (vloop data.length data 0 (set1 0) (set1 0) 1).2.1 30 =
          data.getD ((vloop data.length data 0 (set1 0) (set1 0) 1).1 - 2) 0 := by
        rw [hpin 30 (by omega)]
        exact ctx_eq_getD data _ 32 (by omega) _ (by omega)
      have hp29 : (vloop data.length data 0 (set1 0) (set1 0) 1).2.1 29 =
          data.getD ((vloop data.length data 0 (set1 0) (set1 0) 1).1 - 3) 0 := by
        rw [hpin 29 (by omega)]
        exact ctx_eq_getD data _ 32 (by omega) _ (by omega)
      rw [hp31, hp30, hp29] at hk
      obtain ⟨hk3, hkoff, hchars⟩ := rewind_boundary data hbytes
        (vloop data.length data 0 (set1 0) (set1 0) 1).1 hoff32 hoffle hok
        (lookahead (vloop data.length data 0 (set1 0) (set1 0) 1).2.1) hk
      obtain ⟨csStar, goodsStar, htake⟩ := hchars
      have hflen : csStar.flatten.length =
          (vloop data.length data 0 (set1 0) (set1 0) 1).1 -
            lookahead (vloop data.length data 0 (set1 0) (set1 0) 1).2.1 := by
        have := congrArg List.length htake
        rw [List.length_take] at this
        omega
      have hng : naive_go data 0 =
          naive_go (data.drop ((vloop data.length data 0 (set1 0) (set1 0) 1).1 -
            lookahead (vloop data.length data 0 (set1 0) (set1 0) 1).2.1))
          ((vloop data.length data 0 (set1 0) (set1 0) 1).1 -
            lookahead (vloop data.length data 0 (set1 0) (set1 0) 1).2.1) := by
        conv_lhs =>
          rw [← List.take_append_drop
            ((vloop data.length data 0 (set1 0) (set1 0) 1).1 -
              lookahead (vloop data.length data 0 (set1 0) (set1 0) 1).2.1) data]
        rw [htake, naive_go_chars csStar goodsStar _ 0, hflen]
        congr 1
        omega
      rw [hng, naive_go_add _ ((vloop data.length data 0 (set1 0) (set1 0) 1).1 -
        lookahead (vloop data.length data 0 (set1 0) (set1 0) 1).2.1)]
      cases hg : naive_go (data.drop ((vloop data.length data 0 (set1 0) (set1 0) 1).1 -
          lookahead (vloop data.length data 0 (set1 0) (set1 0) 1).2.1)) 0
      · rfl
      · show some _ = Option.map _ (some _)
        rw [Option.map_some']
        congr 1
        omega
  · rw [if_neg h32]
    cases hg : naive_go data 0
    · rfl
    · show some _ = _
      congr 1
      omega

/-! Characterization of the scalar validator: success means the buffer is a
sequence of complete well-formed characters, and on failure the reported
index is the first byte of the first malformed character. -/

/-- The remaining buffer starts with a malformed (or truncated) sequence. -/
def headBad (s : List Nat) : Prop :=
  s ≠ [] ∧ ∀ c t, s = c ++ t → ¬GoodCh c

theorem chars_nil : Chars [] := ⟨[], fun c hc => absurd hc (List.not_mem_nil c), rfl⟩

theorem chars_cons (c s : List Nat) (hg : GoodCh c) (hs : Chars s) :
    Chars (c ++ s) := by
  obtain ⟨cs, hgs, rfl⟩ := hs
  refine ⟨c :: cs, ?_, by simp⟩
  intro x hx
  rcases List.mem_cons.mp hx with h | h
  · subst h; exact hg
  · exact hgs x h

theorem naive_go_none_of_chars (s : List Nat) (h : Chars s) :
    naive_go s 0 = none := by
  obtain ⟨cs, goods, rfl⟩ := h
  rw [← List.append_nil cs.flatten, naive_go_chars cs goods [] 0]
  rfl

theorem ch2_cond (a b : Nat) (h : ch2 a b) : 0xC2 ≤ a ∧ a ≤ 0xDF ∧ contOk b := by
  obtain ⟨h1, h2, h3⟩ := h
  exact ⟨h1, h2, (contOk_iff b (by unfold contB at h3; omega)).mpr h3⟩

theorem ch3_cond (a b c : Nat) (h : ch3 a b c) :
    contOk b ∧ contOk c ∧
      ((a = 0xE0 ∧ 0xA0 ≤ b) ∨ (0xE1 ≤ a ∧ a ≤ 0xEC) ∨
       (a = 0xED ∧ b ≤ 0x9F) ∨ (0xEE ≤ a ∧ a ≤ 0xEF)) := by
  obtain ⟨h1, h2, ⟨hb, hE0, hED⟩, hc⟩ := h
  refine ⟨(contOk_iff b (by unfold contB at hb; omega)).mpr hb,
    (contOk_iff c (by unfold contB at hc; omega)).mpr hc, ?_⟩
  by_cases he : a = 0xE0
  · exact Or.inl ⟨he, hE0 he⟩
  · by_cases hed : a = 0xED
    · exact Or.inr (Or.inr (Or.inl ⟨hed, hED hed⟩))
    · omega

theorem ch4_cond (a b c d : Nat) (h : ch4 a b c d) :
    contOk b ∧ contOk c ∧ contOk d ∧
      ((a = 0xF0 ∧ 0x90 ≤ b) ∨ (0xF1 ≤ a ∧ a ≤ 0xF3) ∨ (a = 0xF4 ∧ b ≤ 0x8F)) := by
  obtain ⟨h1, h2, ⟨hb, hF0, hF4⟩, hc, hd⟩ := h
  refine ⟨(contOk_iff b (by unfold contB at hb; omega)).mpr hb,
    (contOk_iff c (by unfold contB at hc; omega)).mpr hc,
    (contOk_iff d (by unfold contB at hd; omega)).mpr hd, ?_⟩
  by_cases hf : a = 0xF0
  · exact Or.inl ⟨hf, hF0 hf⟩
  · by_cases hf4 : a = 0xF4
    · exact Or.inr (Or.inr ⟨hf4, hF4 hf4⟩)
    · omega

theorem cond_ch2 (a b : Nat) (hb : b < 256) (h1 : 0xC2 ≤ a) (h2 : a ≤ 0xDF)
    (h3 : contOk b) : ch2 a b :=
  ⟨h1, h2, (contOk_iff b hb).mp h3⟩

theorem cond_ch3 (a b c : Nat) (hb : b < 256) (hc : c < 256)
    (h2 : contOk b) (h3 : contOk c)
    (hd : (a = 0xE0 ∧ 0xA0 ≤ b) ∨ (0xE1 ≤ a ∧ a ≤ 0xEC) ∨
      (a = 0xED ∧ b ≤ 0x9F) ∨ (0xEE ≤ a ∧ a ≤ 0xEF)) : ch3 a b c := by
  have hb2 : contB b := (contOk_iff b hb).mp h2
  have hc2 : contB c := (contOk_iff c hc).mp h3
  refine ⟨?_, ?_, ⟨hb2, ?_, ?_⟩, hc2⟩ <;> rcases hd with ⟨h, h'⟩ | ⟨h, h'⟩ | ⟨h, h'⟩ | ⟨h, h'⟩ <;> omega

theorem cond_ch4 (a b c d : Nat) (hb : b < 256) (hc : c < 256) (hd : d < 256)
    (h2 : contOk b) (h3 : contOk c) (h4 : contOk d)
    (hx : (a = 0xF0 ∧ 0x90 ≤ b) ∨ (0xF1 ≤ a ∧ a ≤ 0xF3) ∨ (a = 0xF4 ∧ b ≤ 0x8F)) :
    ch4 a b c d := by
  have hb2 : contB b := (contOk_iff b hb).mp h2
  have hc2 : contB c := (contOk_iff c hc).mp h3
  have hd2 : contB d := (contOk_iff d hd).mp h4
  refine ⟨?_, ?_, ⟨hb2, ?_, ?_⟩, hc2, hd2⟩ <;>
    rcases hx with ⟨h, h'⟩ | ⟨h, h'⟩ | ⟨h, h'⟩ <;> omega

/-- Outcome of the scalar validator at a given buffer: both success and
failure characterizations, used for the induction below. -/
def NaiveSpec (s : List Nat) : Prop :=
  (naive_go s 0 = none → Chars s) ∧
    (∀ i, naive_go s 0 = some i → Chars (s.take i) ∧ headBad (s.drop i))

theorem consume_step (c restk s : List Nat) (k : Nat) (hs : s = c ++ restk)
    (hk : c.length = k) (hg : GoodCh c)
    (hres : naive_go s 0 = (naive_go restk 0).map (· + k))
    (IH : NaiveSpec restk) : NaiveSpec s := by
  constructor
  · intro hnone
    rw [hres] at hnone
    subst hs
    exact chars_cons c restk hg (IH.1 (Option.map_eq_none'.mp hnone))
  · intro i hsome
    rw [hres] at hsome
    obtain ⟨j, hj, hji⟩ := Option.map_eq_some'.mp hsome
    obtain ⟨hcj, hbj⟩ := IH.2 j hj
    subst hs
    have hik : i = c.length + j := by omega
    subst hik
    constructor
    · rw [List.take_append]
      exact chars_cons _ _ hg hcj
    · rw [List.drop_append]
      exact hbj

theorem fail_step (s : List Nat) (hne : s ≠ [])
    (hbad : ∀ c t, s = c ++ t → ¬GoodCh c)
    (hres : naive_go s 0 = some 0) : NaiveSpec s := by
  constructor
  · intro h
    rw [hres] at h
    exact absurd h (by simp)
  · intro i hi
    rw [hres] at hi
    have : i = 0 := by
      have := Option.some.inj hi
      omega
    subst this
    simp only [List.take_zero, List.drop_zero]
    exact ⟨chars_nil, hne, hbad⟩

theorem naiveSpec_nil : NaiveSpec [] := by
  constructor
  · intro _
    exact chars_nil
  · intro i hi
    rw [show naive_go [] 0 = none from rfl] at hi
    exact absurd hi (by simp)

theorem naive_master : ∀ (L : Nat) (s : List Nat), s.length ≤ L →
    (∀ b ∈ s, b < 256) → NaiveSpec s := by
  intro L
  induction L with
  | zero =>
    intro s hs _
    have : s = [] := by cases s <;> simp_all
    subst this
    constructor
    · intro _
      exact chars_nil
    · intro i hi
      rw [show naive_go [] 0 = none from rfl] at hi
      exact absurd hi (by simp)
  | succ L ihL =>
    intro s hs hbytes
    rcases s with _ | ⟨b1, rest⟩
    · constructor
      · intro _
        exact chars_nil
      · intro i hi
        rw [show naive_go [] 0 = none from rfl] at hi
        exact absurd hi (by simp)
    have hb1 : b1 < 256 := hbytes b1 (by simp)
    have heq : naive_go (b1 :: rest) 0 = _ := naive_go.eq_def (b1 :: rest) 0
    rcases rest with _ | ⟨b2, rest2⟩
    · simp only [] at heq
      split_ifs at heq with h1
      · -- ASCII byte
        refine consume_step [b1] [] _ 1 rfl rfl (GoodCh.one h1) ?_
          naiveSpec_nil
        rw [heq]
        rfl
      · refine fail_step _ (by simp) ?_ heq
        intro c t hct hgc
        cases hgc with
        | @one a h =>
          simp only [List.cons_append, List.nil_append, List.cons.injEq] at hct
          unfold ch1 at h
          omega
        | @two a b h => simp at hct
        | @three a b c h => simp at hct
        | @four a b c d h => simp at hct
    rcases rest2 with _ | ⟨b3, rest3⟩
    · have hb2 : b2 < 256 := hbytes b2 (by simp)
      simp only [] at heq
      split_ifs at heq with h1 h2
      · refine consume_step [b1] [b2] _ 1 rfl rfl (GoodCh.one h1)
          (heq.trans (naive_go_add [b2] (0 + 1))) ?_
        exact ihL [b2] (by simp at hs ⊢; omega) (fun b hb => hbytes b (by simp_all))
      · refine consume_step [b1, b2] [] _ 2 rfl rfl
          (GoodCh.two (cond_ch2 b1 b2 hb2 h2.1 h2.2.1 h2.2.2))
          (by rw [heq]; rfl)
          naiveSpec_nil
      · refine fail_step _ (by simp) ?_ heq
        intro c t hct hgc
        cases hgc with
        | @one a h =>
          simp only [List.cons_append, List.nil_append, List.cons.injEq] at hct
          unfold ch1 at h
          omega
        | @two a b h =>
          simp only [List.cons_append, List.nil_append, List.cons.injEq] at hct
          obtain ⟨rfl, rfl, -⟩ := hct
          exact h2 (ch2_cond _ _ h)
        | @three a b c h => simp at hct
        | @four a b c d h => simp at hct
    rcases rest3 with _ | ⟨b4, rest4⟩
    · have hb2 : b2 < 256 := hbytes b2 (by simp)
      have hb3 : b3 < 256 := hbytes b3 (by simp)
      simp only [] at heq
      split_ifs at heq with h1 h2 h3
      · refine consume_step [b1] [b2, b3] _ 1 rfl rfl (GoodCh.one h1)
          (heq.trans (naive_go_add [b2, b3] (0 + 1))) ?_
        exact ihL [b2, b3] (by simp at hs ⊢; omega) (fun b hb => hbytes b (by simp_all))
      · refine consume_step [b1, b2] [b3] _ 2 rfl rfl
          (GoodCh.two (cond_ch2 b1 b2 hb2 h2.1 h2.2.1 h2.2.2))
          (heq.trans (naive_go_add [b3] (0 + 2))) ?_
        exact ihL [b3] (by simp at hs ⊢; omega) (fun b hb => hbytes b (by simp_all))
      · refine consume_step [b1, b2, b3] [] _ 3 rfl rfl
          (GoodCh.three (cond_ch3 b1 b2 b3 hb2 hb3 h3.1 h3.2.1 h3.2.2))
          (by rw [heq]; rfl)
          naiveSpec_nil
      · refine fail_step _ (by simp) ?_ heq
        intro c t hct hgc
        cases hgc with
        | @one a h =>
          simp only [List.cons_append, List.nil_append, List.cons.injEq] at hct
          unfold ch1 at h
          omega
        | @two a b h =>
          simp only [List.cons_append, List.nil_append, List.cons.injEq] at hct
          obtain ⟨rfl, rfl, -⟩ := hct
          exact h2 (ch2_cond _ _ h)
        | @three a b c h =>
          simp only [List.cons_append, List.nil_append, List.cons.injEq] at hct
          obtain ⟨rfl, rfl, rfl, -⟩ := hct
          obtain ⟨hc1, hc2, hc3⟩ := ch3_cond _ _ _ h
          exact h3 ⟨hc1, hc2, hc3⟩
        | @four a b c d h => simp at hct
    · have hb2 : b2 < 256 := hbytes b2 (by simp)
      have hb3 : b3 < 256 := hbytes b3 (by simp)
      have hb4 : b4 < 256 := hbytes b4 (by simp)
      simp only [] at heq
      split_ifs at heq with h1 h2 h3 h4
      · refine consume_step [b1] (b2 :: b3 :: b4 :: rest4) _ 1 rfl rfl (GoodCh.one h1)
          (heq.trans (naive_go_add (b2 :: b3 :: b4 :: rest4) (0 + 1))) ?_
        exact ihL _ (by simp at hs ⊢; omega) (fun b hb => hbytes b (by simp_all))
      · refine consume_step [b1, b2] (b3 :: b4 :: rest4) _ 2 rfl rfl
          (GoodCh.two (cond_ch2 b1 b2 hb2 h2.1 h2.2.1 h2.2.2))
          (heq.trans (naive_go_add (b3 :: b4 :: rest4) (0 + 2))) ?_
        exact ihL _ (by simp at hs ⊢; omega) (fun b hb => hbytes b (by simp_all))
      · refine consume_step [b1, b2, b3] (b4 :: rest4) _ 3 rfl rfl
          (GoodCh.three (cond_ch3 b1 b2 b3 hb2 hb3 h3.1 h3.2.1 h3.2.2))
          (heq.trans (naive_go_add (b4 :: rest4) (0 + 3))) ?_
        exact ihL _ (by simp at hs ⊢; omega) (fun b hb => hbytes b (by simp_all))
      · refine consume_step [b1, b2, b3, b4] rest4 _ 4 rfl rfl
          (GoodCh.four (cond_ch4 b1 b2 b3 b4 hb2 hb3 hb4 h4.1 h4.2.1 h4.2.2.1 h4.2.2.2))
          (heq.trans (naive_go_add rest4 (0 + 4))) ?_
        exact ihL _ (by simp at hs ⊢; omega) (fun b hb => hbytes b (by simp_all))
      · refine fail_step _ (by simp) ?_ heq
        intro c t hct hgc
        cases hgc with
        | @one a h =>
          simp only [List.cons_append, List.nil_append, List.cons.injEq] at hct
          unfold ch1 at h
          omega
        | @two a b h =>
          simp only [List.cons_append, List.nil_append, List.cons.injEq] at hct
          obtain ⟨rfl, rfl, -⟩ := hct
          exact h2 (ch2_cond _ _ h)
        | @three a b c h =>
          simp only [List.cons_append, List.nil_append, List.cons.injEq] at hct
          obtain ⟨rfl, rfl, rfl, -⟩ := hct
          exact h3 (ch3_cond _ _ _ h)
        | @four a b c d h =>
          simp only [List.cons_append, List.nil_append, List.cons.injEq] at hct
          obtain ⟨rfl, rfl, rfl, rfl, -⟩ := hct
          exact h4 (ch4_cond _ _ _ _ h)

/-! Spec-side restatement of Unicode 6.0 Table 3-7, written from the
claim wording for comparison with the shapes consumed by the code. -/

/-- Well-formed UTF-8 per Table 3-7, as the claim states it: a sequence of
code-unit sequences, each one byte `00..7F`; or `C2..DF` + one continuation
`80..BF`; or `E0..EF` + two continuations with the first restricted to
`A0..BF` after `E0` and `80..9F` after `ED`; or `F0..F4` + three
continuations with the first restricted to `90..BF` after `F0` and
`80..8F` after `F4`. -/
inductive Table37 : List Nat → Prop
  | nil : Table37 []
  | one {b : Nat} {rest : List Nat} : b ≤ 0x7F → Table37 rest →
      Table37 (b :: rest)
  | two {b1 b2 : Nat} {rest : List Nat} : 0xC2 ≤ b1 → b1 ≤ 0xDF →
      0x80 ≤ b2 → b2 ≤ 0xBF → Table37 rest → Table37 (b1 :: b2 :: rest)
  | three {b1 b2 b3 : Nat} {rest : List Nat} : 0xE0 ≤ b1 → b1 ≤ 0xEF →
      0x80 ≤ b2 → b2 ≤ 0xBF → 0x80 ≤ b3 → b3 ≤ 0xBF →
      (b1 = 0xE0 → 0xA0 ≤ b2) → (b1 = 0xED → b2 ≤ 0x9F) → Table37 rest →
      Table37 (b1 :: b2 :: b3 :: rest)
  | four {b1 b2 b3 b4 : Nat} {rest : List Nat} : 0xF0 ≤ b1 → b1 ≤ 0xF4 →
      0x80 ≤ b2 → b2 ≤ 0xBF → 0x80 ≤ b3 → b3 ≤ 0xBF → 0x80 ≤ b4 →
      b4 ≤ 0xBF → (b1 = 0xF0 → 0x90 ≤ b2) → (b1 = 0xF4 → b2 ≤ 0x8F) →
      Table37 rest → Table37 (b1 :: b2 :: b3 :: b4 :: rest)

/-- The character shapes consumed by the code coincide with Table 3-7. -/
theorem chars_iff_table37 (s : List Nat) : Chars s ↔ Table37 s := by
  constructor
  · rintro ⟨cs, goods, rfl⟩
    induction cs with
    | nil => exact Table37.nil
    | cons c cs ihcs =>
      have hg := goods c (List.mem_cons_self c cs)
      have hrest := ihcs (fun x hx => goods x (List.mem_cons_of_mem c hx))
      rw [List.flatten_cons]
      cases hg with
      | one h => exact Table37.one h hrest
      | two h =>
        obtain ⟨h1, h2, hb⟩ := h
        exact Table37.two h1 h2 hb.1 hb.2 hrest
      | three h =>
        obtain ⟨h1, h2, ⟨hb, hE0, hED⟩, hc⟩ := h
        exact Table37.three h1 h2 hb.1 hb.2 hc.1 hc.2 hE0 hED hrest
      | four h =>
        obtain ⟨h1, h2, ⟨hb, hF0, hF4⟩, hc, hd⟩ := h
        exact Table37.four h1 h2 hb.1 hb.2 hc.1 hc.2 hd.1 hd.2 hF0 hF4 hrest
  · intro h
    induction h with
    | nil => exact chars_nil
    | one hb _ ih => exact chars_cons [_] _ (GoodCh.one hb) ih
    | two h1 h2 hb1 hb2 _ ih =>
      exact chars_cons [_, _] _ (GoodCh.two ⟨h1, h2, hb1, hb2⟩) ih
    | three h1 h2 hb1 hb2 hc1 hc2 hE0 hED _ ih =>
      exact chars_cons [_, _, _] _
        (GoodCh.three ⟨h1, h2, ⟨⟨hb1, hb2⟩, hE0, hED⟩, hc1, hc2⟩) ih
    | four h1 h2 hb1 hb2 hc1 hc2 hd1 hd2 hF0 hF4 _ ih =>
      exact chars_cons [_, _, _, _] _
        (GoodCh.four ⟨h1, h2, ⟨⟨hb1, hb2⟩, hF0, hF4⟩, ⟨hc1, hc2⟩, hd1, hd2⟩) ih

/-! The vector loop on all-ASCII input: every block passes, so the loop
consumes the buffer in full 32-byte steps and `err_idx` grows without
bound with the buffer length. -/

theorem vloop_ascii :
    ∀ (fuel : Nat) (data : List Nat) (off : Nat) (pin pfl : Vec) (err : Nat),
    (∀ b ∈ data, b ≤ 0x7F) →
    data.length ≤ off + fuel →
    (∀ i < 32, pin i ≤ 0x7F) →
    (∀ i < 32, pfl i = laneFL (pin i)) →
    (vloop fuel data off pin pfl err).2.2 =
      err + 32 * ((data.length - off) / 32) := by
  intro fuel
  induction fuel with
  | zero =>
    intro data off pin pfl err hascii hfuel hpin hpfl
    rw [vloop]
    show err = err + 32 * ((data.length - off) / 32)
    omega
  | succ fuel ih =>
    intro data off pin pfl err hascii hfuel hpin hpfl
    rw [vloop]
    by_cases hrem : 32 ≤ data.length - off
    · rw [if_pos hrem]
      have hinl : ∀ i, loadu (data.drop off) i = data.getD (off + i) 0 := by
        intro i
        unfold loadu
        exact getD_drop data off i
      have hina : ∀ j < 32, loadu (data.drop off) j ≤ 0x7F := by
        intro j _
        rw [hinl j]
        rcases Nat.lt_or_ge (off + j) data.length with hlt | hge
        · rw [List.getD_eq_getElem?_getD, List.getElem?_eq_getElem hlt]
          exact hascii _ (List.getElem_mem hlt)
        · rw [List.getD_eq_default data 0 hge]
          omega
      have hin256 : ∀ j < 32, loadu (data.drop off) j < 256 := by
        intro j hj
        have := hina j hj
        omega
      have hpin256 : ∀ j < 32, pin j < 256 := by
        intro j hj
        have := hpin j hj
        omega
      have hblk : block_has_error pin pfl (loadu (data.drop off)) = false := by
        apply (block_has_error_false_iff pin pfl (loadu (data.drop off))
          hin256 hpin256 hpfl).mpr
        intro i hi
        apply lane_ascii
        · unfold pv
          split_ifs with h
          · exact hpin _ (by omega)
          · exact hina _ (by omega)
        · unfold pv
          split_ifs with h
          · exact hpin _ (by omega)
          · exact hina _ (by omega)
        · unfold pv
          split_ifs with h
          · exact hpin _ (by omega)
          · exact hina _ (by omega)
        · exact hina i hi
      by_cases hb2 : block_has_error pin pfl (loadu (data.drop off)) = true
      · rw [hblk] at hb2
        exact absurd hb2 (by simp)
      · rw [if_neg hb2]
        rw [ih data (off + 32) (loadu (data.drop off))
          (v_first_len (loadu (data.drop off))) (err + 32) hascii (by omega)
          (fun i hi => hina i hi)
          (fun i hi => v_first_len_lane (loadu (data.drop off)) hin256 i hi)]
        omega
    · rw [if_neg hrem]
      show err = err + 32 * ((data.length - off) / 32)
      have : data.length - off < 32 := by omega
      omega

/-! Helper lemmas shared by the claim theorems. -/

theorem chars_append (a b : List Nat) (ha : Chars a) (hb : Chars b) :
    Chars (a ++ b) := by
  obtain ⟨cs, hg, rfl⟩ := ha
  obtain ⟨ds, hg2, rfl⟩ := hb
  exact ⟨cs ++ ds, fun c hc => (List.mem_append.mp hc).elim (hg c) (hg2 c),
    (List.flatten_append cs ds).symm⟩

theorem valid_iff_chars (s : List Nat) (e : Nat) (hbytes : ∀ x ∈ s, x < 256) :
    (utf8_valid s e).1 = true ↔ Chars s := by
  unfold utf8_valid
  rw [valid_res_eq_naive s hbytes]
  cases hn : naive_go s 0 with
  | none =>
    exact iff_of_true rfl ((naive_master s.length s (le_refl _) hbytes).1 hn)
  | some i =>
    refine iff_of_false (by simp) ?_
    intro hch
    rw [naive_go_none_of_chars s hch] at hn
    exact absurd hn (by simp)

/-- Claim C1: for every byte buffer (of any length), `utf8_valid` and
`utf8_valid_naive` return the same boolean verdict, and whenever both
return `false` they store the same `error_index`. -/
theorem claim_C1 (s : List Nat) (hbytes : ∀ b ∈ s, b < 256) (e1 e2 : Nat) :
    (utf8_valid s e1).1 = (utf8_valid_naive s e2).1 ∧
    ((utf8_valid s e1).1 = false → (utf8_valid_naive s e2).1 = false →
      (utf8_valid s e1).2 = (utf8_valid_naive s e2).2) := by
  unfold utf8_valid utf8_valid_naive
  rw [valid_res_eq_naive s hbytes]
  cases hn : naive_go s 0 <;> simp

theorem claim_C1_witness :
    (utf8_valid [0xE0, 0x80] 5).1 = (utf8_valid_naive [0xE0, 0x80] 7).1 ∧
    ((utf8_valid [0xE0, 0x80] 5).1 = false →
      (utf8_valid_naive [0xE0, 0x80] 7).1 = false →
      (utf8_valid [0xE0, 0x80] 5).2 = (utf8_valid_naive [0xE0, 0x80] 7).2) :=
  claim_C1 [0xE0, 0x80] (by decide) 5 7

/-- Claim C2: `utf8_valid_naive` returns `true` exactly on the buffers that
are well-formed UTF-8 per Unicode 6.0 Table 3-7 (with a sequence truncated
by the end of the buffer malformed). -/
theorem claim_C2 (p : List Nat) (hbytes : ∀ b ∈ p, b < 256) (err_out : Nat) :
    (utf8_valid_naive p err_out).1 = true ↔ Table37 p := by
  rw [← chars_iff_table37]
  unfold utf8_valid_naive
  cases hn : naive_go p 0 with
  | none =>
    exact iff_of_true rfl ((naive_master p.length p (le_refl _) hbytes).1 hn)
  | some i =>
    refine iff_of_false (by simp) ?_
    intro hch
    rw [naive_go_none_of_chars p hch] at hn
    exact absurd hn (by simp)

theorem claim_C2_witness :
    (utf8_valid_naive [0x61, 0xC3, 0xA9] 3).1 = true ↔
      Table37 [0x61, 0xC3, 0xA9] :=
  claim_C2 [0x61, 0xC3, 0xA9] (by decide) 3

/-- Claim C3: on every rejected buffer the stored `error_index` is the
zero-based offset of the first byte of the first malformed sequence: the
prefix before it is a sequence of complete well-formed characters and the
remainder starts with no well-formed character. -/
theorem claim_C3 (p : List Nat) (hbytes : ∀ b ∈ p, b < 256) (e i : Nat)
    (h : utf8_valid p e = (false, i) ∨ utf8_valid_naive p e = (false, i)) :
    Chars (p.take i) ∧ headBad (p.drop i) := by
  have hsome : naive_go p 0 = some i := by
    rcases h with h | h
    · unfold utf8_valid at h
      rw [valid_res_eq_naive p hbytes] at h
      cases hn : naive_go p 0 with
      | none =>
        rw [hn] at h
        exact absurd (congrArg Prod.fst h) (by simp)
      | some j =>
        rw [hn] at h
        have hji : j = i := congrArg Prod.snd h
        rw [hji]
    · unfold utf8_valid_naive at h
      cases hn : naive_go p 0 with
      | none =>
        rw [hn] at h
        exact absurd (congrArg Prod.fst h) (by simp)
      | some j =>
        rw [hn] at h
        have hji : j = i := congrArg Prod.snd h
        rw [hji]
  exact (naive_master p.length p (le_refl _) hbytes).2 i hsome

theorem claim_C3_witness :
    Chars ([0xE0, 0x80].take 0) ∧ headBad ([0xE0, 0x80].drop 0) :=
  claim_C3 [0xE0, 0x80] (by decide) 9 0 (Or.inl (by decide))

/-! Claim C4 material: the concrete buffer separating the claimed rewind
rule from the code, and the rewind rule modelled from the claim wording. -/

def c4data : List Nat := List.replicate 32 0x61 ++ 0x80 :: List.replicate 31 0x61

/-- Spec-modelled from the claim wording: the number of bytes after the
rightmost byte among the final four bytes of `prev_input` that is not a
continuation byte (0 when all four are continuations). -/
def specK4 (pin : Vec) : Nat :=
  if ¬contB (pin 31) then 0
  else if ¬contB (pin 30) then 1
  else if ¬contB (pin 29) then 2
  else if ¬contB (pin 28) then 3
  else 0

/-- Claim C4 (counterexample): on a buffer whose loop stops after one
accepted all-ASCII block, the last byte of `prev_input` is not a
continuation, so the claimed rewind amount is 0, yet the code rewinds
by 1. -/
theorem claim_C4_counterexample :
    lookahead (vloop c4data.length c4data 0 (set1 0) (set1 0) 1).2.1 = 1 ∧
    specK4 (vloop c4data.length c4data 0 (set1 0) (set1 0) 1).2.1 = 0 ∧
    (vloop c4data.length c4data 0 (set1 0) (set1 0) 1).1 = 32 := by decide

/-- Claim C4 (amended): when the vector loop exits after accepting at
least one block, the code inspects the final three bytes of `prev_input`
and rewinds by `k` = 1 if the last byte is not a continuation, else 2 if
the second-to-last is not, else 3 if the third-to-last is not, else 0;
the scalar validator then runs on the buffer from cursor − k, and the
reported index is `err_idx` − k + the scalar index − 1. -/
theorem claim_C4 (data : List Nat) (hbytes : ∀ b ∈ data, b < 256)
    (h32 : 32 ≤ data.length)
    (hne : (vloop data.length data 0 (set1 0) (set1 0) 1).2.2 ≠ 1) :
    lookahead (vloop data.length data 0 (set1 0) (set1 0) 1).2.1 =
      (if ¬contB (data.getD ((vloop data.length data 0 (set1 0) (set1 0) 1).1 - 1) 0)
        then 1
        else if ¬contB (data.getD ((vloop data.length data 0 (set1 0) (set1 0) 1).1 - 2) 0)
          then 2
          else if ¬contB (data.getD ((vloop data.length data 0 (set1 0) (set1 0) 1).1 - 3) 0)
            then 3 else 0) ∧
    valid_res data =
      (match naive_go (data.drop ((vloop data.length data 0 (set1 0) (set1 0) 1).1 -
          lookahead (vloop data.length data 0 (set1 0) (set1 0) 1).2.1)) 0 with
        | none => none
        | some e2 => some ((vloop data.length data 0 (set1 0) (set1 0) 1).2.2 -
            lookahead (vloop data.length data 0 (set1 0) (set1 0) 1).2.1 + e2 - 1)) := by
  have hinv := vloop_invariant data.length data 0 (set1 0) (set1 0) 1 hbytes
    (by omega) (by omega) (by omega)
    (by
      intro i hi
      unfold set1 ctxByte
      rw [if_pos (by omega)])
    (by
      intro i hi
      unfold set1
      decide)
    rfl
    (fun j hj => absurd hj (by omega))
  obtain ⟨hmod, h0le, hoffle, hpin, herr, hok⟩ := hinv
  have hoff32 : 32 ≤ (vloop data.length data 0 (set1 0) (set1 0) 1).1 := by
    omega
  have hpin256 : ∀ i, 28 ≤ i → i < 32 →
      (vloop data.length data 0 (set1 0) (set1 0) 1).2.1 i < 256 := by
    intro i _ hi
    rw [hpin i hi]
    exact ctxByte_lt_256 data hbytes _ _
  have hk := lookahead_eq (vloop data.length data 0 (set1 0) (set1 0) 1).2.1
    hpin256
  have hp31 : (vloop data.length data 0 (set1 0) (set1 0) 1).2.1 31 =
      data.getD ((vloop data.length data 0 (set1 0) (set1 0) 1).1 - 1) 0 := by
    rw [hpin 31 (by omega)]
    exact ctx_eq_getD data _ 32 (by omega) _ (by omega)
  have hp30 : (vloop data.length data 0 (set1 0) (set1 0) 1).2.1 30 =
      data.getD ((vloop data.length data 0 (set1 0) (set1 0) 1).1 - 2) 0 := by
    rw [hpin 30 (by omega)]
    exact ctx_eq_getD data _ 32 (by omega) _ (by omega)
  have hp29 : (vloop data.length data 0 (set1 0) (set1 0) 1).2.1 29 =
      data.getD ((vloop data.length data 0 (set1 0) (set1 0) 1).1 - 3) 0 := by
    rw [hpin 29 (by omega)]
    exact ctx_eq_getD data _ 32 (by omega) _ (by omega)
  rw [hp31, hp30, hp29] at hk
  refine ⟨hk, ?_⟩
  simp only [valid_res]
  rw [if_pos h32, if_neg hne]

theorem claim_C4_witness :
    lookahead (vloop c4data.length c4data 0 (set1 0) (set1 0) 1).2.1 =
      (if ¬contB (c4data.getD ((vloop c4data.length c4data 0 (set1 0) (set1 0) 1).1 - 1) 0)
        then 1
        else if ¬contB (c4data.getD ((vloop c4data.length c4data 0 (set1 0) (set1 0) 1).1 - 2) 0)
          then 2
          else if ¬contB (c4data.getD ((vloop c4data.length c4data 0 (set1 0) (set1 0) 1).1 - 3) 0)
            then 3 else 0) ∧
    valid_res c4data =
      (match naive_go (c4data.drop ((vloop c4data.length c4data 0 (set1 0) (set1 0) 1).1 -
          lookahead (vloop c4data.length c4data 0 (set1 0) (set1 0) 1).2.1)) 0 with
        | none => none
        | some e2 => some ((vloop c4data.length c4data 0 (set1 0) (set1 0) 1).2.2 -
            lookahead (vloop c4data.length c4data 0 (set1 0) (set1 0) 1).2.1 + e2 - 1)) :=
  claim_C4 c4data (by decide) (by decide) (by decide)

/-- Claim C5: the running `err_idx` does stay below the buffer length plus
two in exact arithmetic, but on an addressable all-ASCII buffer of
2^31 + 32 bytes its exact value reaches 2^31 + 33, which exceeds
INT_MAX = 2^31 − 1, so the `int err_idx` of the code overflows. -/
theorem claim_C5 :
    (vloop (List.replicate (2 ^ 31 + 32) 0x61).length
        (List.replicate (2 ^ 31 + 32) 0x61) 0 (set1 0) (set1 0) 1).2.2 =
      2 ^ 31 + 33 ∧ (2 ^ 31 - 1 : Nat) < 2 ^ 31 + 33 := by
  constructor
  · rw [vloop_ascii (List.replicate (2 ^ 31 + 32) 0x61).length
      (List.replicate (2 ^ 31 + 32) 0x61) 0 (set1 0) (set1 0) 1
      (fun b hb => by
        have := List.eq_of_mem_replicate hb
        omega)
      (by omega)
      (fun i _ => by
        unfold set1
        omega)
      (fun i _ => by
        unfold set1
        decide)]
    rw [List.length_replicate]
    norm_num
  · norm_num

/-- Claim C6: every range index in 9..15 selects `min = 0x7F` and
`max = 0x80` from the range tables, every byte value fails the signed
min/max comparison against that pair, and so the lane check rejects. -/
theorem claim_C6 : ∀ r < 16, 9 ≤ r → ∀ b < 256,
    shuffleByte _range_min_tbl r = 0x7F ∧
    shuffleByte _range_max_tbl r = 0x80 ∧
    (toSigned (shuffleByte _range_min_tbl r) > toSigned b ∨
      toSigned b > toSigned (shuffleByte _range_max_tbl r)) ∧
    rangeOk r b = false := by decide

theorem claim_C6_witness :
    shuffleByte _range_min_tbl 9 = 0x7F ∧
    shuffleByte _range_max_tbl 9 = 0x80 ∧
    (toSigned (shuffleByte _range_min_tbl 9) > toSigned 0x41 ∨
      toSigned 0x41 > toSigned (shuffleByte _range_max_tbl 9)) ∧
    rangeOk 9 0x41 = false :=
  claim_C6 9 (by decide) (by decide) 0x41 (by decide)

/-- Claim C7: for every predecessor byte, the `df_ee` lookup yields 2
after E0, 3 after ED and 0 otherwise; the `ef_fe` lookup yields 3 after
F0, 4 after F4 and 0 otherwise; so the unconditional addition of both
adjusts only lanes whose predecessor is E0, ED, F0 or F4. -/
theorem claim_C7 : ∀ v < 256,
    shuffleByte _df_ee_tbl (lanePos v - 240) =
      (if v = 0xE0 then 2 else if v = 0xED then 3 else 0) ∧
    shuffleByte _ef_fe_tbl (min 255 (lanePos v + 112)) =
      (if v = 0xF0 then 3 else if v = 0xF4 then 4 else 0) ∧
    (v = 0xE0 ∨ v = 0xED ∨ v = 0xF0 ∨ v = 0xF4 ∨ laneAdj v = 0) := by decide

theorem claim_C7_witness :
    shuffleByte _df_ee_tbl (lanePos 0x42 - 240) =
      (if (0x42 : Nat) = 0xE0 then 2 else if (0x42 : Nat) = 0xED then 3 else 0) ∧
    shuffleByte _ef_fe_tbl (min 255 (lanePos 0x42 + 112)) =
      (if (0x42 : Nat) = 0xF0 then 3 else if (0x42 : Nat) = 0xF4 then 4 else 0) ∧
    ((0x42 : Nat) = 0xE0 ∨ (0x42 : Nat) = 0xED ∨ (0x42 : Nat) = 0xF0 ∨
      (0x42 : Nat) = 0xF4 ∨ laneAdj 0x42 = 0) :=
  claim_C7 0x42 (by decide)

/-- Claim C9: if `utf8_valid` accepts two buffers, it accepts their
concatenation. -/
theorem claim_C9 (a b : List Nat) (ha : ∀ x ∈ a, x < 256)
    (hb : ∀ x ∈ b, x < 256) (e1 e2 e3 : Nat)
    (h1 : (utf8_valid a e1).1 = true) (h2 : (utf8_valid b e2).1 = true) :
    (utf8_valid (a ++ b) e3).1 = true := by
  rw [valid_iff_chars (a ++ b) e3
    (fun x hx => (List.mem_append.mp hx).elim (ha x) (hb x))]
  exact chars_append a b ((valid_iff_chars a e1 ha).mp h1)
    ((valid_iff_chars b e2 hb).mp h2)

theorem claim_C9_witness : (utf8_valid ([0x61] ++ [0xC3, 0xA9]) 5).1 = true :=
  claim_C9 [0x61] [0xC3, 0xA9] (by decide) (by decide) 1 2 5 (by decide)
    (by decide)

/-- Claim C10: on every accepted input, both validators return the
`error_index` location unchanged. -/
theorem claim_C10 (p : List Nat) (e : Nat) :
    ((utf8_valid p e).1 = true → (utf8_valid p e).2 = e) ∧
    ((utf8_valid_naive p e).1 = true → (utf8_valid_naive p e).2 = e) := by
  unfold utf8_valid utf8_valid_naive
  constructor
  · cases valid_res p <;> simp
  · cases naive_go p 0 <;> simp

theorem claim_C10_witness :
    (utf8_valid [0x61] 7).2 = 7 ∧ (utf8_valid_naive [0x61] 7).2 = 7 :=
  ⟨(claim_C10 [0x61] 7).1 (by decide), (claim_C10 [0x61] 7).2 (by decide)⟩

/-! Claim C8 material: a bounds-checked instrumentation of both validators.
Every byte access goes through `readB` (a checked `List.get?`), every
32-byte vector load requires all 32 positions to be in bounds, and any
out-of-bounds access makes the whole computation return `none`.  The
checked scalar walk keeps the branch guards of the source (`len >= 2`,
`len >= 3`, `len >= 4` on the remaining length); within a guarded branch
it performs every access the guard permits, a superset of the
short-circuit evaluation's accesses, all of them still guarded. -/

def readB (data : List Nat) (i : Nat) : Option Nat := data.get? i

def naive_go_chk : Nat → List Nat → Nat → Nat → Option (Option Nat)
  | 0, data, i, _ => if data.length ≤ i then some none else none
  | fuel + 1, data, i, err =>
    if data.length ≤ i then some none
    else
      match readB data i with
      | none => none
      | some b1 =>
        if b1 ≤ 0x7F then naive_go_chk fuel data (i + 1) (err + 1)
        else
          if 2 ≤ data.length - i then
            match readB data (i + 1) with
            | none => none
            | some b2 =>
              if 0xC2 ≤ b1 ∧ b1 ≤ 0xDF ∧ contOk b2 then
                naive_go_chk fuel data (i + 2) (err + 2)
              else
                if 3 ≤ data.length - i then
                  match readB data (i + 2) with
                  | none => none
                  | some b3 =>
                    if contOk b2 ∧ contOk b3 ∧
                        ((b1 = 0xE0 ∧ 0xA0 ≤ b2) ∨ (0xE1 ≤ b1 ∧ b1 ≤ 0xEC) ∨
                         (b1 = 0xED ∧ b2 ≤ 0x9F) ∨ (0xEE ≤ b1 ∧ b1 ≤ 0xEF)) then
                      naive_go_chk fuel data (i + 3) (err + 3)
                    else
                      if 4 ≤ data.length - i then
                        match readB data (i + 3) with
                        | none => none
                        | some b4 =>
                          if contOk b2 ∧ contOk b3 ∧ contOk b4 ∧
                              ((b1 = 0xF0 ∧ 0x90 ≤ b2) ∨
                               (0xF1 ≤ b1 ∧ b1 ≤ 0xF3) ∨
                               (b1 = 0xF4 ∧ b2 ≤ 0x8F)) then
                            naive_go_chk fuel data (i + 4) (err + 4)
                          else some (some err)
                      else some (some err)
                else some (some err)
          else some (some err)

/-- The 32-byte unaligned load at cursor `off`, checked: all 32 positions
must be inside the buffer. -/
def loadu_chk (data : List Nat) (off : Nat) : Option Vec :=
  if (List.range 32).all (fun k => (readB data (off + k)).isSome) then
    some (loadu (data.drop off))
  else none

def vloop_chk : Nat → List Nat → Nat → Vec → Vec → Nat → Option (Nat × Vec × Nat)
  | 0, _, off, pin, _, err => some (off, pin, err)
  | fuel + 1, data, off, pin, pfl, err =>
    if 32 ≤ data.length - off then
      match loadu_chk data off with
      | none => none
      | some input =>
        if block_has_error pin pfl input then some (off, pin, err)
        else vloop_chk fuel data (off + 32) input (v_first_len input) (err + 32)
    else some (off, pin, err)

def valid_res_chk (data : List Nat) : Option (Option Nat) :=
  if 32 ≤ data.length then
    match vloop_chk data.length data 0 (set1 0) (set1 0) 1 with
    | none => none
    | some r =>
      if r.2.2 = 1 then
        match naive_go_chk data.length data 0 0 with
        | none => none
        | some none => some none
        | some (some e2) => some (some (1 + e2 - 1))
      else
        match naive_go_chk data.length data (r.1 - lookahead r.2.1) 0 with
        | none => none
        | some none => some none
        | some (some e2) => some (some (r.2.2 - lookahead r.2.1 + e2 - 1))
  else
    match naive_go_chk data.length data 0 0 with
    | none => none
    | some none => some none
    | some (some e2) => some (some (1 + e2 - 1))

def utf8_valid_naive_chk (data : List Nat) (error_index : Nat) :
    Option (Bool × Nat) :=
  match naive_go_chk data.length data 0 0 with
  | none => none
  | some none => some (true, error_index)
  | some (some e) => some (false, e)

def utf8_valid_chk (data : List Nat) (error_index : Nat) :
    Option (Bool × Nat) :=
  match valid_res_chk data with
  | none => none
  | some none => some (true, error_index)
  | some (some e) => some (false, e)

/-! Equivalence of the checked instrumentation with the unchecked model:
no access is ever out of bounds, so the checked run returns `some` of the
unchecked result. -/

theorem readB_some (data : List Nat) (i : Nat) (h : i < data.length) :
    readB data i = some (data.getD i 0) := by
  unfold readB
  rw [List.getD_eq_getElem?_getD, List.getElem?_eq_getElem h,
    List.get?_eq_getElem?, List.getElem?_eq_getElem h]
  rfl

theorem drop_eq_getD_cons (data : List Nat) (i : Nat) (h : i < data.length) :
    data.drop i = data.getD i 0 :: data.drop (i + 1) := by
  rw [List.drop_eq_getElem_cons h]
  congr 1
  rw [List.getD_eq_getElem?_getD, List.getElem?_eq_getElem h]
  rfl

theorem naive_go_chk_eq : ∀ (fuel : Nat) (data : List Nat) (i err : Nat),
    data.length - i ≤ fuel →
    naive_go_chk fuel data i err = some (naive_go (data.drop i) err) := by
  intro fuel
  induction fuel with
  | zero =>
    intro data i err hf
    rw [naive_go_chk, if_pos (by omega),
      List.drop_eq_nil_of_le (by omega : data.length ≤ i)]
    rfl
  | succ fuel ih =>
    intro data i err hf
    rw [naive_go_chk]
    by_cases hlen : data.length ≤ i
    · rw [if_pos hlen, List.drop_eq_nil_of_le hlen]
      rfl
    · rw [if_neg hlen, readB_some data i (by omega)]
      have hd1 : data.drop i = data.getD i 0 :: data.drop (i + 1) :=
        drop_eq_getD_cons data i (by omega)
      by_cases hb1 : data.getD i 0 ≤ 0x7F
      · rw [hd1, naive_go.eq_def]
        simp only []
        rw [if_pos hb1, if_pos hb1]
        exact ih data (i + 1) (err + 1) (by omega)
      · by_cases h2 : 2 ≤ data.length - i
        · have hd2 : data.drop (i + 1) = data.getD (i + 1) 0 :: data.drop (i + 2) :=
            drop_eq_getD_cons data (i + 1) (by omega)
          rw [readB_some data (i + 1) (by omega)]
          by_cases h3 : 3 ≤ data.length - i
          · have hd3 : data.drop (i + 2) = data.getD (i + 2) 0 :: data.drop (i + 3) :=
              drop_eq_getD_cons data (i + 2) (by omega)
            rw [readB_some data (i + 2) (by omega)]
            by_cases h4 : 4 ≤ data.length - i
            · have hd4 : data.drop (i + 3) = data.getD (i + 3) 0 :: data.drop (i + 4) :=
                drop_eq_getD_cons data (i + 3) (by omega)
              rw [readB_some data (i + 3) (by omega), hd1, hd2, hd3, hd4,
                naive_go.eq_def]
              simp only []
              rw [if_neg hb1, if_neg hb1, if_pos h2, if_pos h3, if_pos h4]
              by_cases hc2 : 0xC2 ≤ data.getD i 0 ∧ data.getD i 0 ≤ 0xDF ∧
                  contOk (data.getD (i + 1) 0)
              · rw [if_pos hc2, if_pos hc2]
                have hih := ih data (i + 2) (err + 2) (by omega)
                rw [hd3, hd4] at hih
                exact hih
              · rw [if_neg hc2, if_neg hc2]
                by_cases hc3 : contOk (data.getD (i + 1) 0) ∧
                    contOk (data.getD (i + 2) 0) ∧
                    ((data.getD i 0 = 0xE0 ∧ 0xA0 ≤ data.getD (i + 1) 0) ∨
                     (0xE1 ≤ data.getD i 0 ∧ data.getD i 0 ≤ 0xEC) ∨
                     (data.getD i 0 = 0xED ∧ data.getD (i + 1) 0 ≤ 0x9F) ∨
                     (0xEE ≤ data.getD i 0 ∧ data.getD i 0 ≤ 0xEF))
                · rw [if_pos hc3, if_pos hc3]
                  have hih := ih data (i + 3) (err + 3) (by omega)
                  rw [hd4] at hih
                  exact hih
                · rw [if_neg hc3, if_neg hc3]
                  by_cases hc4 : contOk (data.getD (i + 1) 0) ∧
                      contOk (data.getD (i + 2) 0) ∧ contOk (data.getD (i + 3) 0) ∧
                      ((data.getD i 0 = 0xF0 ∧ 0x90 ≤ data.getD (i + 1) 0) ∨
                       (0xF1 ≤ data.getD i 0 ∧ data.getD i 0 ≤ 0xF3) ∨
                       (data.getD i 0 = 0xF4 ∧ data.getD (i + 1) 0 ≤ 0x8F))
                  · rw [if_pos hc4, if_pos hc4]
                    exact ih data (i + 4) (err + 4) (by omega)
                  · rw [if_neg hc4, if_neg hc4]
            · rw [hd1, hd2, hd3,
                List.drop_eq_nil_of_le (by omega : data.length ≤ i + 3),
                naive_go.eq_def]
              simp only []
              rw [if_neg hb1, if_neg hb1, if_pos h2, if_pos h3, if_neg h4]
              by_cases hc2 : 0xC2 ≤ data.getD i 0 ∧ data.getD i 0 ≤ 0xDF ∧
                  contOk (data.getD (i + 1) 0)
              · rw [if_pos hc2, if_pos hc2]
                have hih := ih data (i + 2) (err + 2) (by omega)
                rw [hd3, List.drop_eq_nil_of_le
                  (by omega : data.length ≤ i + 3)] at hih
                exact hih
              · rw [if_neg hc2, if_neg hc2]
                by_cases hc3 : contOk (data.getD (i + 1) 0) ∧
                    contOk (data.getD (i + 2) 0) ∧
                    ((data.getD i 0 = 0xE0 ∧ 0xA0 ≤ data.getD (i + 1) 0) ∨
                     (0xE1 ≤ data.getD i 0 ∧ data.getD i 0 ≤ 0xEC) ∨
                     (data.getD i 0 = 0xED ∧ data.getD (i + 1) 0 ≤ 0x9F) ∨
                     (0xEE ≤ data.getD i 0 ∧ data.getD i 0 ≤ 0xEF))
                · rw [if_pos hc3, if_pos hc3]
                  have hih := ih data (i + 3) (err + 3) (by omega)
                  rw [List.drop_eq_nil_of_le
                    (by omega : data.length ≤ i + 3)] at hih
                  exact hih
                · rw [if_neg hc3, if_neg hc3]
          · rw [hd1, hd2,
              List.drop_eq_nil_of_le (by omega : data.length ≤ i + 2),
              naive_go.eq_def]
            simp only []
            rw [if_neg hb1, if_neg hb1, if_pos h2, if_neg h3]
            by_cases hc2 : 0xC2 ≤ data.getD i 0 ∧ data.getD i 0 ≤ 0xDF ∧
                contOk (data.getD (i + 1) 0)
            · rw [if_pos hc2, if_pos hc2]
              have hih := ih data (i + 2) (err + 2) (by omega)
              rw [List.drop_eq_nil_of_le (by omega : data.length ≤ i + 2)] at hih
              exact hih
            · rw [if_neg hc2, if_neg hc2]
        · rw [hd1, List.drop_eq_nil_of_le (by omega : data.length ≤ i + 1),
            naive_go.eq_def]
          simp only []
          rw [if_neg hb1, if_neg hb1, if_neg h2]

theorem vloop_chk_eq : ∀ (fuel : Nat) (data : List Nat) (off : Nat)
    (pin pfl : Vec) (err : Nat),
    vloop_chk fuel data off pin pfl err =
      some (vloop fuel data off pin pfl err) := by
  intro fuel
  induction fuel with
  | zero =>
    intro data off pin pfl err
    rfl
  | succ fuel ih =>
    intro data off pin pfl err
    by_cases hrem : 32 ≤ data.length - off
    · have hld : loadu_chk data off = some (loadu (data.drop off)) := by
        unfold loadu_chk
        rw [if_pos]
        rw [List.all_eq_true]
        intro k hk
        have hk32 := List.mem_range.mp hk
        show (readB data (off + k)).isSome = true
        rw [readB_some data (off + k) (by omega)]
        rfl
      by_cases hblk : block_has_error pin pfl (loadu (data.drop off)) = true
      · have hl : vloop_chk (fuel + 1) data off pin pfl err =
            some (off, pin, err) := by
          rw [vloop_chk, if_pos hrem, hld]
          simp only []
          rw [if_pos hblk]
        have hr : vloop (fuel + 1) data off pin pfl err = (off, pin, err) := by
          rw [vloop, if_pos hrem]
          show (if block_has_error pin pfl (loadu (data.drop off)) = true
            then (off, pin, err)
            else vloop fuel data (off + 32) (loadu (data.drop off))
              (v_first_len (loadu (data.drop off))) (err + 32)) = (off, pin, err)
          rw [if_pos hblk]
        rw [hl, hr]
      · have hl : vloop_chk (fuel + 1) data off pin pfl err =
            vloop_chk fuel data (off + 32) (loadu (data.drop off))
              (v_first_len (loadu (data.drop off))) (err + 32) := by
          rw [vloop_chk, if_pos hrem, hld]
          simp only []
          rw [if_neg hblk]
        have hr : vloop (fuel + 1) data off pin pfl err =
            vloop fuel data (off + 32) (loadu (data.drop off))
              (v_first_len (loadu (data.drop off))) (err + 32) := by
          rw [vloop, if_pos hrem]
          show (if block_has_error pin pfl (loadu (data.drop off)) = true
            then (off, pin, err)
            else vloop fuel data (off + 32) (loadu (data.drop off))
              (v_first_len (loadu (data.drop off))) (err + 32)) =
            vloop fuel data (off + 32) (loadu (data.drop off))
              (v_first_len (loadu (data.drop off))) (err + 32)
          rw [if_neg hblk]
        rw [hl, hr]
        exact ih data (off + 32) (loadu (data.drop off))
          (v_first_len (loadu (data.drop off))) (err + 32)
    · have hl : vloop_chk (fuel + 1) data off pin pfl err =
          some (off, pin, err) := by
        rw [vloop_chk, if_neg hrem]
      have hr : vloop (fuel + 1) data off pin pfl err = (off, pin, err) := by
        rw [vloop, if_neg hrem]
      rw [hl, hr]

theorem valid_res_chk_eq (data : List Nat) :
    valid_res_chk data = some (valid_res data) := by
  unfold valid_res_chk
  simp only [valid_res]
  by_cases h32 : 32 ≤ data.length
  · rw [if_pos h32, if_pos h32,
      vloop_chk_eq data.length data 0 (set1 0) (set1 0) 1]
    simp only []
    by_cases h1 : (vloop data.length data 0 (set1 0) (set1 0) 1).2.2 = 1
    · rw [if_pos h1, if_pos h1, naive_go_chk_eq data.length data 0 0 (by omega),
        List.drop_zero]
      cases hn : naive_go data 0 <;> rfl
    · rw [if_neg h1, if_neg h1, naive_go_chk_eq data.length data
        ((vloop data.length data 0 (set1 0) (set1 0) 1).1 -
          lookahead (vloop data.length data 0 (set1 0) (set1 0) 1).2.1) 0
        (by omega)]
      cases hn : naive_go (data.drop ((vloop data.length data 0 (set1 0) (set1 0) 1).1 -
        lookahead (vloop data.length data 0 (set1 0) (set1 0) 1).2.1)) 0 <;> rfl
  · rw [if_neg h32, if_neg h32, naive_go_chk_eq data.length data 0 0 (by omega),
      List.drop_zero]
    cases hn : naive_go data 0 <;> rfl

/-- Claim C8: neither validator reads any byte outside the buffer: the
bounds-checked instrumentation, which fails on any access outside
`[0, n)` and requires the 32-byte vector load to fit inside the buffer,
never fails and computes the same result as the unchecked model. -/
theorem claim_C8 (p : List Nat) (e : Nat) :
    utf8_valid_chk p e = some (utf8_valid p e) ∧
    utf8_valid_naive_chk p e = some (utf8_valid_naive p e) := by
  constructor
  · unfold utf8_valid_chk utf8_valid
    rw [valid_res_chk_eq p]
    cases valid_res p <;> rfl
  · unfold utf8_valid_naive_chk utf8_valid_naive
    rw [naive_go_chk_eq p.length p 0 0 (by omega), List.drop_zero]
    cases naive_go p 0 <;> rfl

end Utf8
